import Mathlib

/-!
Verification of the `ocuris/container` binary-heap library against its design
specification.

The development shallowly embeds the three heap implementations found in the
repository:

* `PriorityQueue` — the generic comparator-based heap (`New`, `NewWithCapacity`,
  `NewOrdered`, `NewOrderedMax`, `Push`, `Pop`, `Peek`, `Len`, `IsEmpty`,
  `Clear`, `Contains`, `Remove`, `removeAt`, `bubbleUp`, `bubbleDown`);
* `HeapGo` — the `pq` structure of the `heap` package (`New`, `NewMin`, `NewMax`,
  `compare`, `Push`, `Pop`, `Len`, `bubbleUp`, `bubbleDown`) over `Int`
  (the Go code is generic over `~int | ~float64`; the claims use `int`);
* `ItemPQ` — the `Item`-based slice max-heap (`Push`, `Pop`, `Peek`, `Len`,
  `heapifyUp`, `heapifyDown`, `Update`, `Remove`).

Go slices become `List`s, mutation becomes explicit state passing, Go `panic`
becomes an `Option`/unreachable-branch result, and the Go zero value of a type
parameter becomes `default` of an `Inhabited` instance.  Element access
`data[i]` is modelled with `List.getD i default`; every access performed by the
source is in bounds, so the default is never consulted on the executions the
theorems speak about.
-/

section Util

variable {T : Type} [Inhabited T]

/-- Exchange the elements at positions `i` and `j`, the effect of the Go
parallel assignment `data[i], data[j] = data[j], data[i]` (out-of-range indices
leave the list unchanged; the source only swaps in-bounds indices). -/
def listSwap (l : List T) (i j : Nat) : List T :=
  match l.get? i, l.get? j with
  | some a, some b => (l.set i b).set j a
  | _, _ => l

/-- The Go idiom `data[i] = data[len-1]; data = data[:len-1]` shared by the
`Pop` and `removeAt`/`Remove` methods of all three implementations: overwrite
slot `i` with the last element, then truncate by one. -/
def removeSlot (l : List T) (i : Nat) : List T :=
  (l.set i (l.getD (l.length - 1) default)).take (l.length - 1)

end Util

namespace PriorityQueue

/-- The Go type `Comparator[T any] func(a, b T) int`: negative if `a < b`,
zero if `a == b`, positive if `a > b`. -/
def Comparator (T : Type) : Type := T → T → Int

variable {T : Type} [Inhabited T]

/-- The struct `PriorityQueue[T any]` of the comparator-based implementation:
backing slice `data`, the `comparator`, and `capacity` (`<= 0` means
unbounded). -/
structure Heap (T : Type) where
  data : List T
  comparator : T → T → Int
  capacity : Int

/-- The loop body of method `bubbleUp`, made structurally recursive on a fuel
argument so that it evaluates by reduction; the loop index strictly decreases
toward the root, so `i+1` iterations always suffice and the fuel is never
exhausted on the calls the wrapper makes. -/
def bubbleUpGo (cmp : T → T → Int) : Nat → List T → Nat → List T
  | 0, l, _ => l
  | fuel+1, l, i =>
    if 0 < i then
      let parent := (i - 1) / 2
      if 0 ≤ cmp (l.getD i default) (l.getD parent default) then l
      else bubbleUpGo cmp fuel (listSwap l i parent) parent
    else l

/-- Method `bubbleUp`: restore the heap property from index `i` upward. -/
def bubbleUp (cmp : T → T → Int) (l : List T) (i : Nat) : List T :=
  bubbleUpGo cmp (i+1) l i

/-- The index the `bubbleDown` loop body selects as `smallest` for the current
index `i`: the guards `left < n && comparator(data[left], data[smallest]) < 0`
and `right < n && comparator(data[right], data[smallest]) < 0` of the source,
fused into one selection. -/
def downTarget (cmp : T → T → Int) (l : List T) (i : Nat) : Nat :=
  let n := l.length
  let s1 := if 2*i+1 < n ∧ cmp (l.getD (2*i+1) default) (l.getD i default) < 0
    then 2*i+1 else i
  if 2*i+2 < n ∧ cmp (l.getD (2*i+2) default) (l.getD s1 default) < 0
    then 2*i+2 else s1

/-- The loop of method `bubbleDown`, structurally recursive on fuel; the loop
index strictly increases below the length, so `l.length + 1` iterations always
suffice. -/
def bubbleDownGo (cmp : T → T → Int) : Nat → List T → Nat → List T × Bool
  | 0, l, _ => (l, false)
  | fuel+1, l, i =>
    let s := downTarget cmp l i
    if s = i then (l, false)
    else ((bubbleDownGo cmp fuel (listSwap l i s) s).1, true)

/-- Method `bubbleDown`: restore the heap property from index `i` downward,
returning the new state and whether any swap occurred. -/
def bubbleDown (cmp : T → T → Int) (l : List T) (i : Nat) : List T × Bool :=
  bubbleDownGo cmp (l.length + 1) l i

/-- Method `Pop`: remove and return the highest priority element.  The Go
method returns `(T, bool)` and mutates the receiver; here the value–found pair
is returned next to the new state.  On an empty queue it returns the zero
value (`default`) and `false` without mutation. -/
def Pop (pq : Heap T) : (T × Bool) × Heap T :=
  if pq.data.length = 0 then ((default, false), pq)
  else
    let top := pq.data.getD 0 default
    let d1 := removeSlot pq.data 0
    ((top, true), { pq with data := (bubbleDown pq.comparator d1 0).1 })

/-- Method `Push`: insert an element; on a full bounded queue, reject the
element when `comparator(x, data[0]) <= 0`, otherwise `Pop` first. -/
def Push (pq : Heap T) (x : T) : Heap T × Bool :=
  if 0 < pq.capacity ∧ pq.capacity ≤ (pq.data.length : Int) then
    if pq.comparator x (pq.data.getD 0 default) ≤ 0 then (pq, false)
    else
      let pq2 := (Pop pq).2
      let d := pq2.data ++ [x]
      ({ pq2 with data := bubbleUp pq2.comparator d (d.length - 1) }, true)
  else
    let d := pq.data ++ [x]
    ({ pq with data := bubbleUp pq.comparator d (d.length - 1) }, true)

/-- Method `Peek`: return the highest priority element without removing it. -/
def Peek (pq : Heap T) : T × Bool :=
  if pq.data.length = 0 then (default, false)
  else (pq.data.getD 0 default, true)

/-- Method `Len`. -/
def Len (pq : Heap T) : Nat := pq.data.length

/-- Method `IsEmpty`. -/
def IsEmpty (pq : Heap T) : Bool := pq.data.length = 0

/-- Method `Clear`: `pq.data = pq.data[:0]`. -/
def Clear (pq : Heap T) : Heap T := { pq with data := [] }

/-- Method `Contains`: linear scan with the caller-supplied equality. -/
def Contains (pq : Heap T) (x : T) (equals : T → T → Bool) : Bool :=
  pq.data.any fun item => equals item x

/-- Method `removeAt`: remove the element at position `i`. -/
def removeAt (pq : Heap T) (i : Nat) : Heap T :=
  let n := pq.data.length - 1
  if n ≠ i then
    let d1 := removeSlot pq.data i
    let r := bubbleDown pq.comparator d1 i
    if r.2 then { pq with data := r.1 }
    else { pq with data := bubbleUp pq.comparator r.1 i }
  else { pq with data := pq.data.take n }

/-- The index search of method `Remove`'s `for i, item := range pq.data`
loop: first index whose element satisfies `equals(item, x)`. -/
def findFirst (equals : T → T → Bool) (x : T) : List T → Option Nat
  | [] => none
  | a :: t => if equals a x then some 0 else (findFirst equals x t).map (· + 1)

/-- Method `Remove`: remove the first occurrence of `x` under `equals`. -/
def Remove (pq : Heap T) (x : T) (equals : T → T → Bool) : Heap T × Bool :=
  match findFirst equals x pq.data with
  | some i => (removeAt pq i, true)
  | none => (pq, false)

/-- Constructor `New`: unbounded queue with the given comparator. -/
def New (comparator : T → T → Int) : Heap T :=
  { data := [], comparator := comparator, capacity := 0 }

/-- Constructor `NewWithCapacity`: bounded queue; the Go function panics with
"heap: capacity must be positive" when `capacity <= 0`, modelled as `none`. -/
def NewWithCapacity (comparator : T → T → Int) (capacity : Int) : Option (Heap T) :=
  if capacity ≤ 0 then none
  else some { data := [], comparator := comparator, capacity := capacity }

/-- The comparator `NewOrdered` builds from the built-in order (`-1` if
`a < b`, `1` if `a > b`, else `0`), instantiated at `int`. -/
def orderedCmp (a b : Int) : Int :=
  if a < b then -1 else if a > b then 1 else 0

/-- Constructor `NewOrdered` (natural min-heap), instantiated at `int`. -/
def NewOrdered : Heap Int :=
  { data := [], comparator := orderedCmp, capacity := 0 }

/-- The comparator `NewOrderedMax` builds (`-1` if `a > b`, `1` if `a < b`,
else `0`), instantiated at `int`. -/
def orderedMaxCmp (a b : Int) : Int :=
  if a > b then -1 else if a < b then 1 else 0

/-- Constructor `NewOrderedMax` (natural max-heap), instantiated at `int`. -/
def NewOrderedMax : Heap Int :=
  { data := [], comparator := orderedMaxCmp, capacity := 0 }

end PriorityQueue

namespace HeapGo

/-- The struct `pq[T Ordered]` of the `heap` package, instantiated at `int`
(the claims exercise `NewMax[int]`): backing slice `data`, bound `cap`
(`0` means unbounded) and polarity flag `min`. -/
structure pq where
  data : List Int
  cap : Int
  min : Bool

/-- The body of method `compare` as a function of the `min` flag: `a < b` for
min-heaps, `a > b` for max-heaps ("`a` has higher priority than `b`"). -/
def cmpb (m : Bool) (a b : Int) : Bool :=
  if m then decide (a < b) else decide (a > b)

/-- Method `compare` of `pq`. -/
def compare (h : pq) (a b : Int) : Bool := cmpb h.min a b

/-- The loop of method `bubbleUp` of `pq`, structurally recursive on fuel
(`i+1` iterations always suffice). -/
def bubbleUpGo (m : Bool) : Nat → List Int → Nat → List Int
  | 0, l, _ => l
  | fuel+1, l, i =>
    if 0 < i then
      let parent := (i - 1) / 2
      if cmpb m (l.getD i 0) (l.getD parent 0) then
        bubbleUpGo m fuel (listSwap l i parent) parent
      else l
    else l

/-- Method `bubbleUp` of `pq`. -/
def bubbleUp (m : Bool) (l : List Int) (i : Nat) : List Int :=
  bubbleUpGo m (i+1) l i

/-- The index method `bubbleDown` of `pq` selects as `best` in one loop
iteration. -/
def downTarget (m : Bool) (l : List Int) (i : Nat) : Nat :=
  let n := l.length
  let b1 := if 2*i+1 < n ∧ cmpb m (l.getD (2*i+1) 0) (l.getD i 0) then 2*i+1 else i
  if 2*i+2 < n ∧ cmpb m (l.getD (2*i+2) 0) (l.getD b1 0) then 2*i+2 else b1

/-- The loop of method `bubbleDown` of `pq`, structurally recursive on fuel
(`l.length + 1` iterations always suffice). -/
def bubbleDownGo (m : Bool) : Nat → List Int → Nat → List Int
  | 0, l, _ => l
  | fuel+1, l, i =>
    let b := downTarget m l i
    if b = i then l
    else bubbleDownGo m fuel (listSwap l i b) b

/-- Method `bubbleDown` of `pq`. -/
def bubbleDown (m : Bool) (l : List Int) (i : Nat) : List Int :=
  bubbleDownGo m (l.length + 1) l i

/-- Method `Pop` of `pq`: the Go method panics with
"heap: pop from empty heap" on an empty heap, modelled as `none`. -/
def Pop (h : pq) : Option (Int × pq) :=
  if h.data.length = 0 then none
  else
    let top := h.data.getD 0 0
    let d1 := removeSlot h.data 0
    some (top, { h with data := bubbleDown h.min d1 0 })

/-- Method `Push` of `pq`: on a full bounded heap it first calls `Pop`
unconditionally (evicting the top element) to make space, then appends and
bubbles up.  The `none` branch of the inner match is unreachable: the guard
`cap != 0 && len(data) == cap` forces a non-empty heap. -/
def Push (h : pq) (x : Int) : pq :=
  let h1 := if h.cap ≠ 0 ∧ (h.data.length : Int) = h.cap then
      match Pop h with
      | some p => p.2
      | none => h
    else h
  let d := h1.data ++ [x]
  { h1 with data := bubbleUp h1.min d (d.length - 1) }

/-- Method `Len` of `pq`. -/
def Len (h : pq) : Nat := h.data.length

/-- Constructor `New`: default unbounded min-heap. -/
def New : pq := { data := [], cap := 0, min := true }

/-- Constructor `NewMin` with its optional capacity argument (`none` models
calling it with no argument); panics ("heap: invalid capacity") when the
supplied capacity is `<= 0`, modelled as `none`. -/
def NewMin (size : Option Int) : Option pq :=
  match size with
  | some s => if s ≤ 0 then none else some { data := [], cap := s, min := true }
  | none => some { data := [], cap := 0, min := true }

/-- Constructor `NewMax`, as `NewMin` but with `min := false`. -/
def NewMax (size : Option Int) : Option pq :=
  match size with
  | some s => if s ≤ 0 then none else some { data := [], cap := s, min := false }
  | none => some { data := [], cap := 0, min := false }

/-- The `main()` driver's pop loop `for pq.Len() > 0 { pq.Pop() }`, with the
heap size as fuel. -/
def popAllAux : Nat → pq → List Int
  | 0, _ => []
  | fuel+1, h =>
    match Pop h with
    | some (t, h1) => t :: popAllAux fuel h1
    | none => []

/-- The sequence of values `main()`'s loop prints. -/
def popAll (h : pq) : List Int := popAllAux h.data.length h

end HeapGo

namespace ItemPQ

/-- The struct `Item` of the slice-based queue: `Value any` (a type
parameter here) and `Priority int`. -/
structure Item (α : Type) where
  Value : α
  Priority : Int

instance (α : Type) [Inhabited α] : Inhabited (Item α) := ⟨⟨default, 0⟩⟩

variable {α : Type} [Inhabited α]

/-- The loop of method `heapifyUp`, structurally recursive on fuel (`i+1`
iterations always suffice). -/
def heapifyUpGo : Nat → List (Item α) → Nat → List (Item α)
  | 0, q, _ => q
  | fuel+1, q, i =>
    if 0 < i then
      let parent := (i - 1) / 2
      if (q.getD i default).Priority ≤ (q.getD parent default).Priority then q
      else heapifyUpGo fuel (listSwap q i parent) parent
    else q

/-- Method `heapifyUp` of the slice-based `PriorityQueue`. -/
def heapifyUp (q : List (Item α)) (i : Nat) : List (Item α) :=
  heapifyUpGo (i+1) q i

/-- The index method `heapifyDown` selects as `largest` in one loop
iteration; the source bounds children by `left <= last` with
`last := len(pq) - 1` a Go `int`. -/
def largestAt (q : List (Item α)) (i : Nat) : Nat :=
  let last : Int := (q.length : Int) - 1
  let l1 := if (2*i+1 : Int) ≤ last ∧
      (q.getD (2*i+1) default).Priority > (q.getD i default).Priority
    then 2*i+1 else i
  if (2*i+2 : Int) ≤ last ∧
      (q.getD (2*i+2) default).Priority > (q.getD l1 default).Priority
    then 2*i+2 else l1

/-- The loop of method `heapifyDown`, structurally recursive on fuel
(`q.length + 1` iterations always suffice). -/
def heapifyDownGo : Nat → List (Item α) → Nat → List (Item α)
  | 0, q, _ => q
  | fuel+1, q, i =>
    let b := largestAt q i
    if b = i then q
    else heapifyDownGo fuel (listSwap q i b) b

/-- Method `heapifyDown` of the slice-based `PriorityQueue`. -/
def heapifyDown (q : List (Item α)) (i : Nat) : List (Item α) :=
  heapifyDownGo (q.length + 1) q i

/-- Method `Push` of the slice-based `PriorityQueue`. -/
def Push (q : List (Item α)) (item : Item α) : List (Item α) :=
  heapifyUp (q ++ [item]) ((q ++ [item]).length - 1)

/-- Method `Pop`: returns `Item{}` (the zero value, `default`) on an empty
queue. -/
def Pop (q : List (Item α)) : Item α × List (Item α) :=
  let n := q.length
  if n = 0 then (default, q)
  else
    let top := q.getD 0 default
    let q1 := removeSlot q 0
    (top, heapifyDown q1 0)

/-- Method `Peek`. -/
def Peek (q : List (Item α)) : Item α :=
  if q.length = 0 then default else q.getD 0 default

/-- Method `Len`. -/
def Len (q : List (Item α)) : Nat := q.length

/-- Method `Update`: replace the item at `index` (a Go `int`) and re-heapify
in the direction given by the priority change. -/
def Update (q : List (Item α)) (index : Int) (newItem : Item α) : List (Item α) :=
  if index < 0 ∨ (q.length : Int) ≤ index then q
  else
    let i := index.toNat
    let oldPriority := (q.getD i default).Priority
    let q1 := q.set i newItem
    if newItem.Priority > oldPriority then heapifyUp q1 i
    else heapifyDown q1 i

/-- Method `Remove`: delete the item at `index` (a Go `int`), relocating the
last element there and then calling only `heapifyDown`. -/
def Remove (q : List (Item α)) (index : Int) : List (Item α) :=
  let n := q.length
  if index < 0 ∨ (n : Int) ≤ index then q
  else
    let i := index.toNat
    let q1 := removeSlot q i
    heapifyDown q1 i

/-- The max-heap property of the slice-based `PriorityQueue`: every non-root
position's `Priority` is at most its parent's. -/
def heapOrdered (q : List (Item α)) : Prop :=
  ∀ i, i < q.length → 0 < i →
    (q.getD i default).Priority ≤ (q.getD ((i-1)/2) default).Priority

instance heapOrderedDec (q : List (Item α)) : Decidable (heapOrdered q) :=
  decidable_of_iff
    (∀ i, i < q.length → 0 < i →
      (q.getD i default).Priority ≤ (q.getD ((i-1)/2) default).Priority)
    Iff.rfl

end ItemPQ

namespace PriorityQueue

variable {T : Type} [Inhabited T]

/-- The heap-order invariant of the spec: for every index `i` with parent
`p = (i-1)/2`, `compare(elements[p], elements[i])` never reports the child as
strictly higher priority, i.e. `comparator(elements[p], elements[i]) <= 0`. -/
def heapProp (cmp : T → T → Int) (l : List T) : Prop :=
  ∀ i, i < l.length → 0 < i →
    cmp (l.getD ((i-1)/2) default) (l.getD i default) ≤ 0

instance heapPropDec (cmp : T → T → Int) (l : List T) : Decidable (heapProp cmp l) :=
  decidable_of_iff
    (∀ i, i < l.length → 0 < i →
      cmp (l.getD ((i-1)/2) default) (l.getD i default) ≤ 0)
    Iff.rfl

/-- The spec's requirement that the three-way comparator expresses a total
pre-order: its sign is antisymmetric, and the induced relation
`cmp a b <= 0` is transitive. -/
def LawfulCmp (cmp : T → T → Int) : Prop :=
  (∀ a b, 0 ≤ cmp a b ↔ cmp b a ≤ 0) ∧
  (∀ a b c, cmp a b ≤ 0 → cmp b c ≤ 0 → cmp a c ≤ 0)

/-- All states a queue can evolve into from state `p` by the mutating
operations `Push`, `Pop`, `Remove` and `Clear`. -/
inductive Evolves : Heap T → Heap T → Prop
  | refl (q : Heap T) : Evolves q q
  | push (p q : Heap T) (x : T) : Evolves p q → Evolves p (Push q x).1
  | pop (p q : Heap T) : Evolves p q → Evolves p (Pop q).2
  | remove (p q : Heap T) (x : T) (equals : T → T → Bool) :
      Evolves p q → Evolves p (Remove q x equals).1
  | clear (p q : Heap T) : Evolves p q → Evolves p (Clear q)

/-- Fold a sequence of `Push` calls, dropping the returned booleans. -/
def pushList (q : Heap T) (xs : List T) : Heap T :=
  xs.foldl (fun h x => (Push h x).1) q

/-- A `for q.Len() > 0 { q.Pop() }` drain loop, with the heap size as fuel. -/
def popAllAux : Nat → Heap T → List T
  | 0, _ => []
  | fuel+1, q =>
    if q.data.length = 0 then []
    else (Pop q).1.1 :: popAllAux fuel (Pop q).2

/-- The values obtained by popping a queue until empty. -/
def popAll (q : Heap T) : List T := popAllAux q.data.length q

end PriorityQueue

/-- The push sequence `5,3,8,1,2,4,7,6,0,9` exercised by `main()` and by the
spec's testable properties. -/
def seedValues : List Int := [5, 3, 8, 1, 2, 4, 7, 6, 0, 9]

namespace PriorityQueue

/-- `NewOrdered` seeded with the spec's value sequence. -/
def seedMin : Heap Int := pushList NewOrdered seedValues

/-- `NewOrderedMax` seeded with the spec's value sequence. -/
def seedMax : Heap Int := pushList NewOrderedMax seedValues

/-- A full bounded min-heap fixture: data `[1,2,3]`, natural comparator,
capacity `3`. -/
def pqW : Heap Int :=
  { data := [1, 2, 3], comparator := orderedCmp, capacity := 3 }

/-- An unbounded min-heap fixture with data `[1,2,3,4,5]`. -/
def pqR : Heap Int :=
  { data := [1, 2, 3, 4, 5], comparator := orderedCmp, capacity := 0 }

/-- The state reached from `New` by pushing `5`, `3`, `8` and popping once. -/
def pqC2 : Heap Int :=
  (Pop (Push (Push (Push (New orderedCmp) 5).1 3).1 8).1).2

end PriorityQueue

namespace HeapGo

/-- Fold a sequence of `Push` calls on the `heap` package's `pq`. -/
def hgPushList (h : pq) (xs : List Int) : pq := xs.foldl Push h

/-- The heap `main()` constructs: `heap.NewMax[int](3)`. -/
def mainStart : pq := { data := [], cap := 3, min := false }

/-- The heap state after `main()` has performed its ten pushes. -/
def mainFinal : pq := hgPushList mainStart seedValues

/-- All states the `heap` package's `pq` can evolve into from state `p` by
its mutating operations `Push` and (successful) `Pop`. -/
inductive HEvolves : pq → pq → Prop
  | refl (h : pq) : HEvolves h h
  | push (p h : pq) (x : Int) : HEvolves p h → HEvolves p (Push h x)
  | pop (p h h1 : pq) (t : Int) : HEvolves p h → Pop h = some (t, h1) → HEvolves p h1

end HeapGo

namespace ItemPQ

/-- A valid max-heap of priorities `[10, 3, 9, 1, 2, 8]` on which `Remove`
breaks the heap property. -/
def badPQ : List (Item Int) :=
  [⟨0, 10⟩, ⟨0, 3⟩, ⟨0, 9⟩, ⟨0, 1⟩, ⟨0, 2⟩, ⟨0, 8⟩]

end ItemPQ

section UtilLemmas

variable {T : Type} [Inhabited T]

omit [Inhabited T] in
theorem length_listSwap (l : List T) (i j : Nat) :
    (listSwap l i j).length = l.length := by
  unfold listSwap
  split <;> simp

theorem listSwap_eq (l : List T) {i j : Nat} (hi : i < l.length) (hj : j < l.length) :
    listSwap l i j = (l.set i (l.getD j default)).set j (l.getD i default) := by
  unfold listSwap
  have h1 : l.get? i = some (l.getD i default) := by
    rw [List.get?_eq_getElem?, List.getElem?_eq_getElem hi, List.getD_eq_getElem l default hi]
  have h2 : l.get? j = some (l.getD j default) := by
    rw [List.get?_eq_getElem?, List.getElem?_eq_getElem hj, List.getD_eq_getElem l default hj]
  rw [h1, h2]

theorem getD_listSwap (l : List T) {i j : Nat} (hi : i < l.length) (hj : j < l.length)
    (k : Nat) :
    (listSwap l i j).getD k default =
      if k = j then l.getD i default
      else if k = i then l.getD j default
      else l.getD k default := by
  rw [listSwap_eq l hi hj]
  by_cases hk : k < l.length
  · have hk2 : k < ((l.set i (l.getD j default)).set j (l.getD i default)).length := by
      simpa using hk
    rw [List.getD_eq_getElem _ _ hk2]
    simp only [List.getElem_set]
    split_ifs <;> first
      | rfl
      | omega
      | exact (List.getD_eq_getElem l default hk).symm
  · have hkj : k ≠ j := by omega
    have hki : k ≠ i := by omega
    rw [if_neg hkj, if_neg hki, List.getD_eq_default _ _ (by simpa using hk),
      List.getD_eq_default _ _ (by omega)]

theorem getD_cons_set_perm :
    ∀ (t : List T) (k : Nat) (x : T), k < t.length →
      List.Perm (t.getD k default :: t.set k x) (x :: t)
  | a :: s, 0, x, _ => by
    simp only [List.getD_cons_zero, List.set_cons_zero]
    exact List.Perm.swap x a s
  | a :: s, k+1, x, h => by
    simp only [List.getD_cons_succ, List.set_cons_succ]
    have ih := getD_cons_set_perm s k x (by simpa using h)
    exact ((List.Perm.swap a (s.getD k default) (s.set k x)).trans
      (ih.cons a)).trans (List.Perm.swap x a s)

theorem listSwap_perm :
    ∀ (l : List T) (i j : Nat), i < l.length → j < l.length →
      List.Perm (listSwap l i j) l
  | [], i, _, hi, _ => absurd hi (by simp)
  | x :: t, 0, 0, _, _ => by
    rw [listSwap_eq _ (by simp) (by simp)]
    simp
  | x :: t, 0, m+1, hi, hj => by
    rw [listSwap_eq _ hi hj]
    simp only [List.getD_cons_zero, List.getD_cons_succ, List.set_cons_zero,
      List.set_cons_succ]
    exact getD_cons_set_perm t m x (by simpa using hj)
  | x :: t, k+1, 0, hi, hj => by
    rw [listSwap_eq _ hi hj]
    simp only [List.getD_cons_zero, List.getD_cons_succ, List.set_cons_succ,
      List.set_cons_zero]
    exact getD_cons_set_perm t k x (by simpa using hi)
  | x :: t, k+1, m+1, hi, hj => by
    rw [listSwap_eq _ hi hj]
    simp only [List.getD_cons_succ, List.set_cons_succ]
    have ih := listSwap_perm t k m (by simpa using hi) (by simpa using hj)
    rw [listSwap_eq t (by simpa using hi) (by simpa using hj)] at ih
    exact ih.cons x

theorem getD_set_take (l : List T) (a : T) {i k m : Nat} (hk : k < m)
    (hml : m ≤ l.length) :
    ((l.set i a).take m).getD k default =
      if k = i then a else l.getD k default := by
  have hlen : k < ((l.set i a).take m).length := by
    simp only [List.length_take, List.length_set]
    omega
  rw [List.getD_eq_getElem _ _ hlen, List.getElem_take]
  rw [List.getElem_set]
  split_ifs <;> first
    | rfl
    | omega
    | exact (List.getD_eq_getElem l default (by omega)).symm

omit [Inhabited T] in
theorem length_set_take (l : List T) (a : T) {i m : Nat} (hml : m ≤ l.length) :
    ((l.set i a).take m).length = m := by
  simp only [List.length_take, List.length_set]
  omega

theorem getD_append_self (l : List T) (x : T) :
    (l ++ [x]).getD l.length default = x := by
  rw [List.getD_append_right _ _ _ _ (Nat.le_refl _)]
  simp

end UtilLemmas

namespace PriorityQueue

variable {T : Type} [Inhabited T] {cmp : T → T → Int}

omit [Inhabited T] in
theorem lcmp_refl (hl : LawfulCmp cmp) (a : T) : cmp a a ≤ 0 := by
  have h := hl.1 a a
  omega

omit [Inhabited T] in
theorem lcmp_flip (hl : LawfulCmp cmp) {a b : T} (h : 0 ≤ cmp a b) : cmp b a ≤ 0 :=
  (hl.1 a b).mp h

omit [Inhabited T] in
theorem lcmp_of_not_lt (hl : LawfulCmp cmp) {a b : T} (h : ¬ cmp a b < 0) :
    cmp b a ≤ 0 := by
  have h1 := hl.1 a b
  omega

omit [Inhabited T] in
theorem lcmp_pos_of_lt (hl : LawfulCmp cmp) {a b : T} (h : cmp a b < 0) :
    0 < cmp b a := by
  have h1 := hl.1 a b
  omega

omit [Inhabited T] in
theorem lcmp_trans (hl : LawfulCmp cmp) {a b c : T}
    (h1 : cmp a b ≤ 0) (h2 : cmp b c ≤ 0) : cmp a c ≤ 0 :=
  hl.2 a b c h1 h2

omit [Inhabited T] in
theorem lcmp_lt_of_lt_of_le (hl : LawfulCmp cmp) {a b c : T}
    (h1 : cmp a b < 0) (h2 : cmp b c ≤ 0) : cmp a c < 0 := by
  by_contra hcon
  have h3 : cmp c a ≤ 0 := lcmp_of_not_lt hl hcon
  have h4 : cmp b a ≤ 0 := hl.2 b c a h2 h3
  have h5 := hl.1 a b
  omega

omit [Inhabited T] in
theorem lcmp_lt_of_le_of_lt (hl : LawfulCmp cmp) {a b c : T}
    (h1 : cmp a b ≤ 0) (h2 : cmp b c < 0) : cmp a c < 0 := by
  by_contra hcon
  have h3 : cmp c a ≤ 0 := lcmp_of_not_lt hl hcon
  have h4 : cmp c b ≤ 0 := hl.2 c a b h3 h1
  have h5 := hl.1 b c
  omega

theorem downTarget_spec (hl : LawfulCmp cmp) (l : List T) (i : Nat) :
    (downTarget cmp l i = i ∧
      ∀ c, c < l.length → (c = 2*i+1 ∨ c = 2*i+2) →
        cmp (l.getD i default) (l.getD c default) ≤ 0) ∨
    (i < downTarget cmp l i ∧ downTarget cmp l i < l.length ∧
      (downTarget cmp l i = 2*i+1 ∨ downTarget cmp l i = 2*i+2) ∧
      cmp (l.getD (downTarget cmp l i) default) (l.getD i default) < 0 ∧
      ∀ c, c < l.length → (c = 2*i+1 ∨ c = 2*i+2) →
        cmp (l.getD (downTarget cmp l i) default) (l.getD c default) ≤ 0) := by
  simp only [downTarget]
  by_cases h1 : 2*i+1 < l.length ∧ cmp (l.getD (2*i+1) default) (l.getD i default) < 0
  · rw [if_pos h1]
    by_cases h2 : 2*i+2 < l.length ∧
        cmp (l.getD (2*i+2) default) (l.getD (2*i+1) default) < 0
    · rw [if_pos h2]
      refine Or.inr ⟨by omega, by omega, Or.inr rfl, ?_, ?_⟩
      · exact lcmp_lt_of_lt_of_le hl h2.2 (le_of_lt h1.2)
      · intro c _ hc
        rcases hc with rfl | rfl
        · exact le_of_lt h2.2
        · exact lcmp_refl hl _
    · rw [if_neg h2]
      refine Or.inr ⟨by omega, h1.1, Or.inl rfl, h1.2, ?_⟩
      intro c hc hcc
      rcases hcc with rfl | rfl
      · exact lcmp_refl hl _
      · exact lcmp_of_not_lt hl (by intro hcon; exact h2 ⟨hc, hcon⟩)
  · rw [if_neg h1]
    by_cases h2 : 2*i+2 < l.length ∧ cmp (l.getD (2*i+2) default) (l.getD i default) < 0
    · rw [if_pos h2]
      refine Or.inr ⟨by omega, h2.1, Or.inr rfl, h2.2, ?_⟩
      intro c hc hcc
      rcases hcc with rfl | rfl
      · have h3 : cmp (l.getD i default) (l.getD (2*i+1) default) ≤ 0 :=
          lcmp_of_not_lt hl (by intro hcon; exact h1 ⟨hc, hcon⟩)
        exact lcmp_trans hl (le_of_lt h2.2) h3
      · exact lcmp_refl hl _
    · rw [if_neg h2]
      refine Or.inl ⟨rfl, ?_⟩
      intro c hc hcc
      rcases hcc with rfl | rfl
      · exact lcmp_of_not_lt hl (by intro hcon; exact h1 ⟨hc, hcon⟩)
      · exact lcmp_of_not_lt hl (by intro hcon; exact h2 ⟨hc, hcon⟩)

end PriorityQueue

namespace PriorityQueue

variable {T : Type} [Inhabited T] {cmp : T → T → Int}

theorem downTarget_eq_or (cmp : T → T → Int) (l : List T) (i : Nat) :
    downTarget cmp l i = i ∨
      (i < downTarget cmp l i ∧ downTarget cmp l i < l.length) := by
  simp only [downTarget]
  by_cases h1 : 2*i+1 < l.length ∧ cmp (l.getD (2*i+1) default) (l.getD i default) < 0
  · rw [if_pos h1]
    by_cases h2 : 2*i+2 < l.length ∧
        cmp (l.getD (2*i+2) default) (l.getD (2*i+1) default) < 0
    · rw [if_pos h2]; omega
    · rw [if_neg h2]; omega
  · rw [if_neg h1]
    by_cases h2 : 2*i+2 < l.length ∧ cmp (l.getD (2*i+2) default) (l.getD i default) < 0
    · rw [if_pos h2]; omega
    · rw [if_neg h2]; omega

theorem bubbleUpGo_fuel : ∀ (f1 f2 : Nat) (l : List T) (i : Nat), i < f1 → i < f2 →
    bubbleUpGo cmp f1 l i = bubbleUpGo cmp f2 l i := by
  intro f1
  induction f1 with
  | zero =>
    intro f2 l i h1 h2
    omega
  | succ f ih =>
    intro f2 l i h1 h2
    cases f2 with
    | zero => omega
    | succ g =>
      simp only [bubbleUpGo]
      split
      next h0 =>
        split
        next => rfl
        next => exact ih g _ _ (by omega) (by omega)
      next => rfl

theorem bubbleUp_unfold (l : List T) (i : Nat) :
    bubbleUp cmp l i =
      if 0 < i then
        if 0 ≤ cmp (l.getD i default) (l.getD ((i-1)/2) default) then l
        else bubbleUp cmp (listSwap l i ((i-1)/2)) ((i-1)/2)
      else l := by
  have step : bubbleUpGo cmp (i+1) l i =
      if 0 < i then
        if 0 ≤ cmp (l.getD i default) (l.getD ((i-1)/2) default) then l
        else bubbleUpGo cmp i (listSwap l i ((i-1)/2)) ((i-1)/2)
      else l := rfl
  rw [show bubbleUp cmp l i = bubbleUpGo cmp (i+1) l i from rfl, step]
  by_cases h0 : 0 < i
  · rw [if_pos h0, if_pos h0]
    by_cases hc : 0 ≤ cmp (l.getD i default) (l.getD ((i-1)/2) default)
    · rw [if_pos hc, if_pos hc]
    · rw [if_neg hc, if_neg hc]
      exact bubbleUpGo_fuel i ((i-1)/2 + 1) (listSwap l i ((i-1)/2)) ((i-1)/2)
        (by omega) (by omega)
  · rw [if_neg h0, if_neg h0]

theorem bubbleDownGo_fuel : ∀ (f1 f2 : Nat) (l : List T) (i : Nat),
    l.length - i < f1 → l.length - i < f2 →
    bubbleDownGo cmp f1 l i = bubbleDownGo cmp f2 l i := by
  intro f1
  induction f1 with
  | zero =>
    intro f2 l i h1 h2
    omega
  | succ f ih =>
    intro f2 l i h1 h2
    cases f2 with
    | zero => omega
    | succ g =>
      simp only [bubbleDownGo]
      split
      next => rfl
      next hne =>
        rcases downTarget_eq_or cmp l i with h | h
        · exact absurd h hne
        · rw [ih g (listSwap l i (downTarget cmp l i)) (downTarget cmp l i)
            (by rw [length_listSwap]; omega) (by rw [length_listSwap]; omega)]

theorem bubbleDown_unfold (l : List T) (i : Nat) :
    bubbleDown cmp l i =
      if downTarget cmp l i = i then (l, false)
      else ((bubbleDown cmp (listSwap l i (downTarget cmp l i))
        (downTarget cmp l i)).1, true) := by
  have step : bubbleDownGo cmp (l.length + 1) l i =
      if downTarget cmp l i = i then (l, false)
      else ((bubbleDownGo cmp l.length (listSwap l i (downTarget cmp l i))
        (downTarget cmp l i)).1, true) := rfl
  rw [show bubbleDown cmp l i = bubbleDownGo cmp (l.length + 1) l i from rfl, step]
  by_cases hdt : downTarget cmp l i = i
  · rw [if_pos hdt, if_pos hdt]
  · rw [if_neg hdt, if_neg hdt]
    rcases downTarget_eq_or cmp l i with h | h
    · exact absurd h hdt
    · rw [bubbleDownGo_fuel l.length ((listSwap l i (downTarget cmp l i)).length + 1)
        (listSwap l i (downTarget cmp l i)) (downTarget cmp l i)
        (by rw [length_listSwap]; omega) (by rw [length_listSwap]; omega)]
      rfl

theorem bubbleUp_length (l : List T) (i : Nat) :
    (bubbleUp cmp l i).length = l.length := by
  induction i using Nat.strong_induction_on generalizing l with
  | _ i ih =>
    rw [bubbleUp_unfold]
    split
    next h0 =>
      split
      next => rfl
      next => rw [ih _ (by omega), length_listSwap]
    next => rfl

theorem bubbleUp_perm (l : List T) (i : Nat) (hi : i < l.length) :
    (bubbleUp cmp l i).Perm l := by
  induction i using Nat.strong_induction_on generalizing l with
  | _ i ih =>
    rw [bubbleUp_unfold]
    split
    next h0 =>
      split
      next => exact List.Perm.refl l
      next =>
        have hp : (i-1)/2 < l.length := by omega
        have h1 := ih ((i-1)/2) (by omega) (listSwap l i ((i-1)/2))
          (by rw [length_listSwap]; omega)
        exact h1.trans (listSwap_perm l i ((i-1)/2) hi hp)
    next => exact List.Perm.refl l

theorem bubbleUp_noop (l : List T) (i : Nat)
    (h : 0 < i → 0 ≤ cmp (l.getD i default) (l.getD ((i-1)/2) default)) :
    bubbleUp cmp l i = l := by
  rw [bubbleUp_unfold]
  split
  next h0 => rw [if_pos (h h0)]
  next => rfl

theorem bubbleDown_false {l : List T} {i : Nat} (h : downTarget cmp l i = i) :
    bubbleDown cmp l i = (l, false) := by
  rw [bubbleDown_unfold, if_pos h]

theorem bubbleDown_true {l : List T} {i : Nat} (h : downTarget cmp l i ≠ i) :
    bubbleDown cmp l i =
      ((bubbleDown cmp (listSwap l i (downTarget cmp l i))
        (downTarget cmp l i)).1, true) := by
  rw [bubbleDown_unfold, if_neg h]

theorem downTarget_of_snd_false {l : List T} {i : Nat}
    (h : (bubbleDown cmp l i).2 = false) : downTarget cmp l i = i := by
  by_contra hne
  rw [bubbleDown_true hne] at h
  simp at h

theorem bubbleDown_fst_of_snd_false {l : List T} {i : Nat}
    (h : (bubbleDown cmp l i).2 = false) : (bubbleDown cmp l i).1 = l := by
  rw [bubbleDown_false (downTarget_of_snd_false h)]

theorem bubbleDown_length (l : List T) (i : Nat) :
    (bubbleDown cmp l i).1.length = l.length := by
  suffices h : ∀ (n : Nat) (l : List T) (i : Nat), l.length - i ≤ n →
      (bubbleDown cmp l i).1.length = l.length from h l.length l i (by omega)
  intro n
  induction n with
  | zero =>
    intro l i hn
    have hdt : downTarget cmp l i = i := by
      rcases downTarget_eq_or cmp l i with h | h
      · exact h
      · omega
    rw [bubbleDown_false hdt]
  | succ n ih =>
    intro l i hn
    by_cases hdt : downTarget cmp l i = i
    · rw [bubbleDown_false hdt]
    · rw [bubbleDown_true hdt]
      dsimp only
      rcases downTarget_eq_or cmp l i with h | h
      · exact absurd h hdt
      · rw [ih _ _ (by rw [length_listSwap]; omega), length_listSwap]

theorem bubbleDown_perm :
    ∀ (l : List T) (i : Nat), i < l.length → (bubbleDown cmp l i).1.Perm l := by
  suffices h : ∀ (n : Nat) (l : List T) (i : Nat), l.length - i ≤ n →
      i < l.length → (bubbleDown cmp l i).1.Perm l from
    fun l i hi => h l.length l i (by omega) hi
  intro n
  induction n with
  | zero =>
    intro l i hn hi
    omega
  | succ n ih =>
    intro l i hn hi
    by_cases hdt : downTarget cmp l i = i
    · rw [bubbleDown_false hdt]
    · rw [bubbleDown_true hdt]
      rcases downTarget_eq_or cmp l i with h | h
      · exact absurd h hdt
      · have h1 := ih (listSwap l i (downTarget cmp l i)) (downTarget cmp l i)
          (by rw [length_listSwap]; omega) (by rw [length_listSwap]; omega)
        exact h1.trans (listSwap_perm l i _ hi h.2)

theorem bubbleDown_getD_lt :
    ∀ (l : List T) (i : Nat), i < l.length → ∀ k, k < i →
      (bubbleDown cmp l i).1.getD k default = l.getD k default := by
  suffices h : ∀ (n : Nat) (l : List T) (i : Nat), l.length - i ≤ n →
      i < l.length → ∀ k, k < i →
      (bubbleDown cmp l i).1.getD k default = l.getD k default from
    fun l i hi => h l.length l i (by omega) hi
  intro n
  induction n with
  | zero =>
    intro l i hn hi
    omega
  | succ n ih =>
    intro l i hn hi k hk
    by_cases hdt : downTarget cmp l i = i
    · rw [bubbleDown_false hdt]
    · rw [bubbleDown_true hdt]
      dsimp only
      rcases downTarget_eq_or cmp l i with h | h
      · exact absurd h hdt
      · rw [ih (listSwap l i (downTarget cmp l i)) (downTarget cmp l i)
          (by rw [length_listSwap]; omega) (by rw [length_listSwap]; omega) k (by omega),
          getD_listSwap l hi h.2 k, if_neg (by omega), if_neg (by omega)]

theorem bubbleUp_heapProp (hl : LawfulCmp cmp) :
    ∀ (i : Nat) (l : List T), i < l.length →
      (∀ j, j < l.length → 0 < j → j ≠ i →
        cmp (l.getD ((j-1)/2) default) (l.getD j default) ≤ 0) →
      (0 < i → ∀ c, c < l.length → 0 < c → (c-1)/2 = i →
        cmp (l.getD ((i-1)/2) default) (l.getD c default) ≤ 0) →
      heapProp cmp (bubbleUp cmp l i) := by
  intro i
  induction i using Nat.strong_induction_on with
  | _ i ihs =>
    intro l hi hexc hgp
    rw [bubbleUp_unfold]
    split
    next h0 =>
      split
      next hge =>
        intro j hj hj0
        by_cases hji : j = i
        · subst hji
          exact lcmp_flip hl hge
        · exact hexc j hj hj0 hji
      next hge =>
        have hlt : cmp (l.getD i default) (l.getD ((i-1)/2) default) < 0 := by omega
        have hp : (i-1)/2 < l.length := by omega
        apply ihs ((i-1)/2) (by omega) (listSwap l i ((i-1)/2))
        · rw [length_listSwap]; omega
        · intro j hj hjg hjp
          rw [length_listSwap] at hj
          rw [getD_listSwap l hi hp, getD_listSwap l hi hp]
          by_cases hD : j = i
          · subst hD
            rw [if_pos (show (j-1)/2 = (j-1)/2 from rfl),
              if_neg (show ¬ j = (j-1)/2 by omega),
              if_pos (show j = j from rfl)]
            exact le_of_lt hlt
          · by_cases hB : (j-1)/2 = i
            · rw [if_neg (show ¬ (j-1)/2 = (i-1)/2 by omega), if_pos hB,
                if_neg (show ¬ j = (i-1)/2 by omega), if_neg hD]
              exact hgp h0 j hj hjg hB
            · by_cases hA : (j-1)/2 = (i-1)/2
              · rw [if_pos hA, if_neg hjp, if_neg hD]
                have h2 := hexc j hj hjg hD
                rw [hA] at h2
                exact lcmp_trans hl (le_of_lt hlt) h2
              · rw [if_neg hA, if_neg hB, if_neg hjp, if_neg hD]
                exact hexc j hj hjg hD
        · intro hp0 c hc hc0 hpc
          rw [length_listSwap] at hc
          rw [getD_listSwap l hi hp, getD_listSwap l hi hp]
          rw [if_neg (show ¬ ((i-1)/2-1)/2 = (i-1)/2 by omega),
            if_neg (show ¬ ((i-1)/2-1)/2 = i by omega)]
          have h2 := hexc ((i-1)/2) hp (by omega) (by omega)
          by_cases hci : c = i
          · subst hci
            rw [if_neg (show ¬ c = (c-1)/2 by omega), if_pos (show c = c from rfl)]
            exact h2
          · rw [if_neg (show ¬ c = (i-1)/2 by omega), if_neg hci]
            have h3 := hexc c hc hc0 hci
            rw [hpc] at h3
            exact lcmp_trans hl h2 h3
    next h0 =>
      intro j hj hj0
      exact hexc j hj hj0 (by omega)

theorem bubbleDown_heapProp (hl : LawfulCmp cmp) :
    ∀ (l : List T) (i : Nat), i < l.length →
      (∀ j, j < l.length → 0 < j → (j-1)/2 ≠ i →
        cmp (l.getD ((j-1)/2) default) (l.getD j default) ≤ 0) →
      (0 < i → ∀ c, c < l.length → 0 < c → (c-1)/2 = i →
        cmp (l.getD ((i-1)/2) default) (l.getD c default) ≤ 0) →
      heapProp cmp (bubbleDown cmp l i).1 := by
  suffices h : ∀ (n : Nat) (l : List T) (i : Nat), l.length - i ≤ n → i < l.length →
      (∀ j, j < l.length → 0 < j → (j-1)/2 ≠ i →
        cmp (l.getD ((j-1)/2) default) (l.getD j default) ≤ 0) →
      (0 < i → ∀ c, c < l.length → 0 < c → (c-1)/2 = i →
        cmp (l.getD ((i-1)/2) default) (l.getD c default) ≤ 0) →
      heapProp cmp (bubbleDown cmp l i).1 from
    fun l i hi hα hγ => h l.length l i (by omega) hi hα hγ
  intro n
  induction n with
  | zero =>
    intro l i hn hi
    omega
  | succ n ih =>
    intro l i hn hi hα hγ
    by_cases hdt : downTarget cmp l i = i
    · rw [bubbleDown_false hdt]
      dsimp only
      rcases downTarget_spec hl l i with ⟨_, hkids⟩ | ⟨hbig, _⟩
      · intro j hj hj0
        by_cases hpj : (j-1)/2 = i
        · have h2 := hkids j hj (by omega)
          rw [hpj]
          exact h2
        · exact hα j hj hj0 hpj
      · omega
    · rcases downTarget_spec hl l i with ⟨heq, _⟩ | ⟨hilt, hdn, hchild, hlt0, hmin⟩
      · exact absurd heq hdt
      rw [bubbleDown_true hdt]
      dsimp only
      apply ih (listSwap l i (downTarget cmp l i)) (downTarget cmp l i)
        (by rw [length_listSwap]; omega) (by rw [length_listSwap]; exact hdn)
      · intro j hj hj0 hjp
        rw [length_listSwap] at hj
        rw [getD_listSwap l hi hdn, getD_listSwap l hi hdn]
        by_cases hjd : j = downTarget cmp l i
        · rw [hjd]
          rw [if_neg (show ¬ (downTarget cmp l i - 1)/2 = downTarget cmp l i by omega),
            if_pos (show (downTarget cmp l i - 1)/2 = i by omega),
            if_pos (show downTarget cmp l i = downTarget cmp l i from rfl)]
          exact le_of_lt hlt0
        · by_cases hji : j = i
          · rw [hji]
            rw [if_neg (show ¬ (i-1)/2 = downTarget cmp l i by omega),
              if_neg (show ¬ (i-1)/2 = i by omega),
              if_neg (show ¬ i = downTarget cmp l i by omega),
              if_pos (show i = i from rfl)]
            exact hγ (by omega) (downTarget cmp l i) hdn (by omega) (by omega)
          · by_cases hpji : (j-1)/2 = i
            · rw [if_neg hjp, if_pos hpji, if_neg hjd, if_neg hji]
              exact hmin j hj (by omega)
            · rw [if_neg hjp, if_neg hpji, if_neg hjd, if_neg hji]
              exact hα j hj hj0 hpji
      · intro hs0 c hc hc0 hpc
        rw [length_listSwap] at hc
        rw [getD_listSwap l hi hdn, getD_listSwap l hi hdn]
        rw [if_neg (show ¬ (downTarget cmp l i - 1)/2 = downTarget cmp l i by omega),
          if_pos (show (downTarget cmp l i - 1)/2 = i by omega),
          if_neg (show ¬ c = downTarget cmp l i by omega),
          if_neg (show ¬ c = i by omega)]
        have h3 := hα c hc hc0 (by omega)
        rw [hpc] at h3
        exact h3

theorem downTarget_eq_of_above (hl : LawfulCmp cmp) {l : List T} {i : Nat}
    (h0 : 0 < i)
    (hγ : ∀ c, c < l.length → 0 < c → (c-1)/2 = i →
      cmp (l.getD ((i-1)/2) default) (l.getD c default) ≤ 0)
    (hup : cmp (l.getD i default) (l.getD ((i-1)/2) default) < 0) :
    downTarget cmp l i = i := by
  rcases downTarget_spec hl l i with ⟨h, _⟩ | ⟨hilt, hdn, hchild, hlt0, _⟩
  · exact h
  · exfalso
    have hγd : cmp (l.getD ((i-1)/2) default) (l.getD (downTarget cmp l i) default) ≤ 0 :=
      hγ _ hdn (by omega) (by omega)
    have h1 : cmp (l.getD i default) (l.getD (downTarget cmp l i) default) < 0 :=
      lcmp_lt_of_lt_of_le hl hup hγd
    have h2 := lcmp_pos_of_lt hl h1
    omega

theorem length_removeSlot (l : List T) (i : Nat) :
    (removeSlot l i).length = l.length - 1 :=
  length_set_take _ _ (Nat.sub_le _ _)

theorem getD_removeSlot (l : List T) {i k : Nat} (hk : k < l.length - 1) :
    (removeSlot l i).getD k default =
      if k = i then l.getD (l.length - 1) default else l.getD k default :=
  getD_set_take _ _ hk (Nat.sub_le _ _)

theorem removeSlot_cons_perm (l : List T) (i : Nat) (hi : i < l.length) :
    List.Perm (l.getD i default :: removeSlot l i) l := by
  rcases l.eq_nil_or_concat with rfl | ⟨l1, b, rfl⟩
  · simp at hi
  · rw [List.concat_eq_append] at hi ⊢
    have hlen : (l1 ++ [b]).length - 1 = l1.length := by
      simp
    have hgb : (l1 ++ [b]).getD ((l1 ++ [b]).length - 1) default = b := by
      rw [hlen]
      exact getD_append_self l1 b
    by_cases hil : i < l1.length
    · unfold removeSlot
      rw [hgb, hlen, List.set_append, if_pos hil,
        List.take_append_of_le_length (by simp),
        show List.take l1.length (l1.set i b) = l1.set i b from by
          rw [← List.length_set l1 i b]; exact List.take_length _,
        List.getD_append _ _ _ _ hil]
      exact (getD_cons_set_perm l1 i b hil).trans
        (List.perm_append_singleton b l1).symm
    · have hieq : i = l1.length := by
        simp only [List.length_append, List.length_singleton] at hi
        omega
      unfold removeSlot
      rw [hgb, hlen, hieq, List.getD_append_right _ _ _ _ (Nat.le_refl _)]
      simp only [Nat.sub_self, List.getD_cons_zero]
      rw [List.set_append, if_neg (by omega), Nat.sub_self,
        List.set_cons_zero, List.take_left]
      exact (List.perm_append_singleton b l1).symm

theorem Pop_empty {pq : Heap T} (h : pq.data.length = 0) :
    Pop pq = ((default, false), pq) := by
  rw [Pop, if_pos h]

theorem Pop_nonempty {pq : Heap T} (h : pq.data.length ≠ 0) :
    Pop pq = ((pq.data.getD 0 default, true),
      { pq with data := (bubbleDown pq.comparator (removeSlot pq.data 0) 0).1 }) := by
  rw [Pop, if_neg h]

theorem Pop_comparator (pq : Heap T) : (Pop pq).2.comparator = pq.comparator := by
  rw [Pop]
  split <;> rfl

theorem Pop_capacity (pq : Heap T) : (Pop pq).2.capacity = pq.capacity := by
  rw [Pop]
  split <;> rfl

theorem Pop_length {pq : Heap T} (h : pq.data.length ≠ 0) :
    (Pop pq).2.data.length = pq.data.length - 1 := by
  rw [Pop_nonempty h]
  dsimp only
  rw [bubbleDown_length, length_removeSlot]

theorem Pop_length_le (pq : Heap T) : (Pop pq).2.data.length ≤ pq.data.length := by
  by_cases h : pq.data.length = 0
  · rw [Pop_empty h]
  · rw [Pop_length h]
    omega

theorem downTarget_nil (i : Nat) : downTarget cmp ([] : List T) i = i := by
  simp [downTarget]

theorem Pop_heapProp (hl : LawfulCmp cmp) {pq : Heap T}
    (hcmp : pq.comparator = cmp) (hh : heapProp cmp pq.data) :
    heapProp cmp (Pop pq).2.data := by
  by_cases h : pq.data.length = 0
  · rw [Pop_empty h]
    exact hh
  · rw [Pop_nonempty h]
    dsimp only
    rw [hcmp]
    by_cases h1 : pq.data.length = 1
    · have hd1 : removeSlot pq.data 0 = [] := by
        have := length_removeSlot pq.data 0
        rw [h1] at this
        exact List.eq_nil_of_length_eq_zero this
      rw [hd1, bubbleDown_false (downTarget_nil 0)]
      intro j hj hj0
      simp at hj
    · apply bubbleDown_heapProp hl
      · rw [length_removeSlot]
        omega
      · intro j hj hj0 hjp
        rw [length_removeSlot] at hj
        rw [getD_removeSlot _ (by omega), getD_removeSlot _ hj,
          if_neg hjp, if_neg (show ¬ j = 0 by omega)]
        exact hh j (by omega) hj0
      · intro h0
        exact absurd h0 (by omega)

theorem Pop_perm {pq : Heap T} (h : pq.data.length ≠ 0) :
    List.Perm (pq.data.getD 0 default :: (Pop pq).2.data) pq.data := by
  rw [Pop_nonempty h]
  dsimp only
  have h1 : (bubbleDown pq.comparator (removeSlot pq.data 0) 0).1.Perm
      (removeSlot pq.data 0) := by
    by_cases h0 : (removeSlot pq.data 0).length = 0
    · rw [List.eq_nil_of_length_eq_zero h0, bubbleDown_false (downTarget_nil 0)]
    · exact bubbleDown_perm _ 0 (by omega)
  exact (h1.cons _).trans (removeSlot_cons_perm pq.data 0 (by omega))

theorem Push_reject {pq : Heap T} {x : T}
    (hb : 0 < pq.capacity ∧ pq.capacity ≤ (pq.data.length : Int))
    (hx : pq.comparator x (pq.data.getD 0 default) ≤ 0) :
    Push pq x = (pq, false) := by
  rw [Push, if_pos hb, if_pos hx]

theorem Push_evict {pq : Heap T} {x : T}
    (hb : 0 < pq.capacity ∧ pq.capacity ≤ (pq.data.length : Int))
    (hx : ¬ pq.comparator x (pq.data.getD 0 default) ≤ 0) :
    Push pq x = ({ (Pop pq).2 with
      data := bubbleUp (Pop pq).2.comparator ((Pop pq).2.data ++ [x])
        (((Pop pq).2.data ++ [x]).length - 1) }, true) := by
  rw [Push, if_pos hb, if_neg hx]

theorem Push_plain {pq : Heap T} {x : T}
    (hb : ¬ (0 < pq.capacity ∧ pq.capacity ≤ (pq.data.length : Int))) :
    Push pq x = ({ pq with
      data := bubbleUp pq.comparator (pq.data ++ [x])
        ((pq.data ++ [x]).length - 1) }, true) := by
  rw [Push, if_neg hb]

theorem Push_comparator (pq : Heap T) (x : T) :
    (Push pq x).1.comparator = pq.comparator := by
  by_cases hb : 0 < pq.capacity ∧ pq.capacity ≤ (pq.data.length : Int)
  · by_cases hx : pq.comparator x (pq.data.getD 0 default) ≤ 0
    · rw [Push_reject hb hx]
    · rw [Push_evict hb hx]
      exact Pop_comparator pq
  · rw [Push_plain hb]

theorem Push_capacity (pq : Heap T) (x : T) :
    (Push pq x).1.capacity = pq.capacity := by
  by_cases hb : 0 < pq.capacity ∧ pq.capacity ≤ (pq.data.length : Int)
  · by_cases hx : pq.comparator x (pq.data.getD 0 default) ≤ 0
    · rw [Push_reject hb hx]
    · rw [Push_evict hb hx]
      exact Pop_capacity pq
  · rw [Push_plain hb]

theorem append_bubbleUp_heapProp (hl : LawfulCmp cmp) {l : List T}
    (hh : heapProp cmp l) (x : T) :
    heapProp cmp (bubbleUp cmp (l ++ [x]) ((l ++ [x]).length - 1)) := by
  apply bubbleUp_heapProp hl
  · simp only [List.length_append, List.length_singleton]
    omega
  · intro j hj hj0 hjn
    simp only [List.length_append, List.length_singleton] at hj hjn
    rw [List.getD_append _ _ _ _ (by omega), List.getD_append _ _ _ _ (by omega)]
    exact hh j (by omega) hj0
  · intro h0 c hc hc0 hpc
    exfalso
    simp only [List.length_append, List.length_singleton] at hc hpc
    omega

theorem Push_heapProp (hl : LawfulCmp cmp) {pq : Heap T}
    (hcmp : pq.comparator = cmp) (hh : heapProp cmp pq.data) (x : T) :
    heapProp cmp (Push pq x).1.data := by
  by_cases hb : 0 < pq.capacity ∧ pq.capacity ≤ (pq.data.length : Int)
  · by_cases hx : pq.comparator x (pq.data.getD 0 default) ≤ 0
    · rw [Push_reject hb hx]
      exact hh
    · rw [Push_evict hb hx]
      dsimp only
      rw [Pop_comparator, hcmp]
      exact append_bubbleUp_heapProp hl (Pop_heapProp hl hcmp hh) x
  · rw [Push_plain hb]
    dsimp only
    rw [hcmp]
    exact append_bubbleUp_heapProp hl hh x

theorem getD_take (l : List T) (m j : Nat) (h : j < (l.take m).length) :
    (l.take m).getD j default = l.getD j default := by
  have h2 : j < l.length := by
    simp only [List.length_take, lt_inf_iff] at h
    exact h.2
  rw [List.getD_eq_getElem _ _ h, List.getElem_take, List.getD_eq_getElem _ _ h2]

theorem heapProp_take {l : List T} (hh : heapProp cmp l) (m : Nat) :
    heapProp cmp (l.take m) := by
  intro j hj hj0
  have hjl : j < l.length := by
    simp only [List.length_take, lt_inf_iff] at hj
    exact hj.2
  rw [getD_take _ _ _ (by omega : (j-1)/2 < (l.take m).length), getD_take _ _ _ hj]
  exact hh j hjl hj0

theorem removeAt_unfold (pq : Heap T) (i : Nat) :
    removeAt pq i =
      if pq.data.length - 1 ≠ i then
        if (bubbleDown pq.comparator (removeSlot pq.data i) i).2 then
          { pq with data := (bubbleDown pq.comparator (removeSlot pq.data i) i).1 }
        else
          { pq with data := (bubbleUp pq.comparator
            (bubbleDown pq.comparator (removeSlot pq.data i) i).1 i) }
      else { pq with data := pq.data.take (pq.data.length - 1) } := by
  rw [removeAt]

theorem removeAt_heapProp (hl : LawfulCmp cmp) {pq : Heap T}
    (hcmp : pq.comparator = cmp) (hh : heapProp cmp pq.data) (i : Nat)
    (hi : i < pq.data.length) :
    heapProp cmp (removeAt pq i).data := by
  rw [removeAt_unfold, hcmp]
  split
  next hlast =>
    have hi1 : i < pq.data.length - 1 := by omega
    have hd1len : (removeSlot pq.data i).length = pq.data.length - 1 :=
      length_removeSlot _ _
    have hγ1 : 0 < i → ∀ c, c < (removeSlot pq.data i).length → 0 < c → (c-1)/2 = i →
        cmp ((removeSlot pq.data i).getD ((i-1)/2) default)
          ((removeSlot pq.data i).getD c default) ≤ 0 := by
      intro h0 c hc hc0 hpc
      rw [hd1len] at hc
      rw [getD_removeSlot _ (by omega), getD_removeSlot _ hc,
        if_neg (show ¬ (i-1)/2 = i by omega), if_neg (show ¬ c = i by omega)]
      have e1 := hh i hi h0
      have e2 := hh c (by omega) hc0
      rw [hpc] at e2
      exact lcmp_trans hl e1 e2
    have hα1 : ∀ j, j < (removeSlot pq.data i).length → 0 < j → (j-1)/2 ≠ i → j ≠ i →
        cmp ((removeSlot pq.data i).getD ((j-1)/2) default)
          ((removeSlot pq.data i).getD j default) ≤ 0 := by
      intro j hj hj0 hjp hji
      rw [hd1len] at hj
      rw [getD_removeSlot _ (by omega), getD_removeSlot _ hj, if_neg hjp, if_neg hji]
      exact hh j (by omega) hj0
    split
    next hsw =>
      dsimp only
      have hβ : 0 < i → cmp ((removeSlot pq.data i).getD ((i-1)/2) default)
          ((removeSlot pq.data i).getD i default) ≤ 0 := by
        intro h0
        by_contra hcon
        have hx1 := hl.1 ((removeSlot pq.data i).getD ((i-1)/2) default)
          ((removeSlot pq.data i).getD i default)
        have hx2 := hl.1 ((removeSlot pq.data i).getD i default)
          ((removeSlot pq.data i).getD ((i-1)/2) default)
        have hup : cmp ((removeSlot pq.data i).getD i default)
            ((removeSlot pq.data i).getD ((i-1)/2) default) < 0 := by omega
        have hdt := downTarget_eq_of_above hl h0 (hγ1 h0) hup
        rw [bubbleDown_false hdt] at hsw
        simp at hsw
      apply bubbleDown_heapProp hl
      · rw [hd1len]
        omega
      · intro j hj hj0 hjp
        by_cases hji : j = i
        · rw [hji]
          exact hβ (by omega)
        · exact hα1 j hj hj0 hjp hji
      · exact hγ1
    next hsw =>
      dsimp only
      have hsw2 : (bubbleDown cmp (removeSlot pq.data i) i).2 = false := by
        simpa using hsw
      have hdt : downTarget cmp (removeSlot pq.data i) i = i :=
        downTarget_of_snd_false hsw2
      rw [bubbleDown_fst_of_snd_false hsw2]
      apply bubbleUp_heapProp hl
      · rw [hd1len]
        omega
      · intro j hj hj0 hji
        by_cases hjp : (j-1)/2 = i
        · rcases downTarget_spec hl (removeSlot pq.data i) i with ⟨_, hkids⟩ | ⟨hbig, _⟩
          · have h2 := hkids j hj (by omega)
            rw [hjp]
            exact h2
          · omega
        · exact hα1 j hj hj0 hjp hji
      · exact hγ1
  next hlast =>
    dsimp only
    exact heapProp_take hh _

omit [Inhabited T] in
theorem findFirst_lt_length {equals : T → T → Bool} {x : T} :
    ∀ {l : List T} {i : Nat}, findFirst equals x l = some i → i < l.length := by
  intro l
  induction l with
  | nil =>
    intro i h
    simp [findFirst] at h
  | cons a t ih =>
    intro i h
    simp only [findFirst] at h
    split at h
    next =>
      cases h
      simp
    next =>
      rcases ho : findFirst equals x t with _ | j
      · rw [ho] at h
        simp at h
      · rw [ho] at h
        simp only [Option.map_some'] at h
        cases h
        have := ih ho
        simp only [List.length_cons]
        omega

theorem removeAt_comparator (pq : Heap T) (i : Nat) :
    (removeAt pq i).comparator = pq.comparator := by
  rw [removeAt_unfold]
  split
  · split <;> rfl
  · rfl

theorem removeAt_capacity (pq : Heap T) (i : Nat) :
    (removeAt pq i).capacity = pq.capacity := by
  rw [removeAt_unfold]
  split
  · split <;> rfl
  · rfl

theorem removeAt_length_le (pq : Heap T) (i : Nat) :
    (removeAt pq i).data.length ≤ pq.data.length := by
  rw [removeAt_unfold]
  split
  · split
    · dsimp only
      rw [bubbleDown_length, length_removeSlot]
      omega
    · dsimp only
      rw [bubbleUp_length, bubbleDown_length, length_removeSlot]
      omega
  · dsimp only
    rw [List.length_take]
    exact inf_le_right.trans (Nat.le_refl _)

theorem Remove_heapProp (hl : LawfulCmp cmp) {pq : Heap T}
    (hcmp : pq.comparator = cmp) (hh : heapProp cmp pq.data) (x : T)
    (equals : T → T → Bool) :
    heapProp cmp (Remove pq x equals).1.data := by
  rw [Remove]
  rcases ho : findFirst equals x pq.data with _ | i
  · exact hh
  · exact removeAt_heapProp hl hcmp hh i (findFirst_lt_length ho)

theorem Remove_comparator (pq : Heap T) (x : T) (equals : T → T → Bool) :
    (Remove pq x equals).1.comparator = pq.comparator := by
  rw [Remove]
  rcases ho : findFirst equals x pq.data with _ | i
  · rfl
  · exact removeAt_comparator pq i

theorem Remove_capacity (pq : Heap T) (x : T) (equals : T → T → Bool) :
    (Remove pq x equals).1.capacity = pq.capacity := by
  rw [Remove]
  rcases ho : findFirst equals x pq.data with _ | i
  · rfl
  · exact removeAt_capacity pq i

theorem Remove_length_le (pq : Heap T) (x : T) (equals : T → T → Bool) :
    (Remove pq x equals).1.data.length ≤ pq.data.length := by
  rw [Remove]
  rcases ho : findFirst equals x pq.data with _ | i
  · exact Nat.le_refl _
  · exact removeAt_length_le pq i

theorem Evolves_inv {q0 q : Heap T} (he : Evolves q0 q) :
    q.comparator = q0.comparator ∧ q.capacity = q0.capacity ∧
      (LawfulCmp q0.comparator → heapProp q0.comparator q0.data →
        heapProp q0.comparator q.data) := by
  induction he with
  | refl => exact ⟨rfl, rfl, fun _ h => h⟩
  | push q x h ih =>
    obtain ⟨hc, hcap, hh⟩ := ih
    refine ⟨(Push_comparator q x).trans hc, (Push_capacity q x).trans hcap, ?_⟩
    intro hl h0
    exact Push_heapProp hl hc (hh hl h0) x
  | pop q h ih =>
    obtain ⟨hc, hcap, hh⟩ := ih
    refine ⟨(Pop_comparator q).trans hc, (Pop_capacity q).trans hcap, ?_⟩
    intro hl h0
    exact Pop_heapProp hl hc (hh hl h0)
  | remove q x equals h ih =>
    obtain ⟨hc, hcap, hh⟩ := ih
    refine ⟨(Remove_comparator q x equals).trans hc,
      (Remove_capacity q x equals).trans hcap, ?_⟩
    intro hl h0
    exact Remove_heapProp hl hc (hh hl h0) x equals
  | clear q h ih =>
    obtain ⟨hc, hcap, _⟩ := ih
    refine ⟨hc, hcap, ?_⟩
    intro _ _ j hj hj0
    simp [Clear] at hj

theorem Push_length_le {pq : Heap T} {x : T} (hcap : 0 < pq.capacity)
    (hle : (pq.data.length : Int) ≤ pq.capacity) :
    ((Push pq x).1.data.length : Int) ≤ pq.capacity := by
  by_cases hb : 0 < pq.capacity ∧ pq.capacity ≤ (pq.data.length : Int)
  · by_cases hx : pq.comparator x (pq.data.getD 0 default) ≤ 0
    · rw [Push_reject hb hx]
      exact hle
    · rw [Push_evict hb hx]
      dsimp only
      have hne : pq.data.length ≠ 0 := by
        have h2 := hb.2
        omega
      rw [bubbleUp_length, List.length_append, List.length_singleton, Pop_length hne]
      have h2 := hb.2
      omega
  · rw [Push_plain hb]
    dsimp only
    rw [bubbleUp_length, List.length_append, List.length_singleton]
    have h3 : ¬ pq.capacity ≤ (pq.data.length : Int) := fun h => hb ⟨hcap, h⟩
    omega

theorem Evolves_capacity_inv {q0 q : Heap T} (he : Evolves q0 q)
    (hcap : 0 < q0.capacity) (hlen : (q0.data.length : Int) ≤ q0.capacity) :
    (q.data.length : Int) ≤ q.capacity := by
  induction he with
  | refl => exact hlen
  | push q x h ih =>
    have hc := (Evolves_inv h).2.1
    rw [Push_capacity]
    exact Push_length_le (by omega) ih
  | pop q h ih =>
    rw [Pop_capacity]
    have h2 := Pop_length_le q
    omega
  | remove q x equals h ih =>
    rw [Remove_capacity]
    have h2 := Remove_length_le q x equals
    omega
  | clear q h ih =>
    have hc := (Evolves_inv h).2.1
    simp only [Clear, List.length_nil]
    omega

end PriorityQueue

namespace HeapGo

theorem hgDownTarget_eq_or (m : Bool) (l : List Int) (i : Nat) :
    downTarget m l i = i ∨ (i < downTarget m l i ∧ downTarget m l i < l.length) := by
  simp only [downTarget]
  by_cases h1 : 2*i+1 < l.length ∧ cmpb m (l.getD (2*i+1) 0) (l.getD i 0)
  · rw [if_pos h1]
    by_cases h2 : 2*i+2 < l.length ∧ cmpb m (l.getD (2*i+2) 0) (l.getD (2*i+1) 0)
    · rw [if_pos h2]; omega
    · rw [if_neg h2]; omega
  · rw [if_neg h1]
    by_cases h2 : 2*i+2 < l.length ∧ cmpb m (l.getD (2*i+2) 0) (l.getD i 0)
    · rw [if_pos h2]; omega
    · rw [if_neg h2]; omega

theorem hgBubbleUpGo_length :
    ∀ (f : Nat) (m : Bool) (l : List Int) (i : Nat),
      (bubbleUpGo m f l i).length = l.length := by
  intro f
  induction f with
  | zero => intro m l i; rfl
  | succ f ih =>
    intro m l i
    simp only [bubbleUpGo]
    split
    next =>
      split
      next => rw [ih, length_listSwap]
      next => rfl
    next => rfl

theorem hgBubbleUp_length (m : Bool) (l : List Int) (i : Nat) :
    (bubbleUp m l i).length = l.length :=
  hgBubbleUpGo_length _ m l i

theorem hgBubbleDownGo_length :
    ∀ (f : Nat) (m : Bool) (l : List Int) (i : Nat),
      (bubbleDownGo m f l i).length = l.length := by
  intro f
  induction f with
  | zero => intro m l i; rfl
  | succ f ih =>
    intro m l i
    simp only [bubbleDownGo]
    split
    next => rfl
    next => rw [ih, length_listSwap]

theorem hgBubbleDown_length (m : Bool) (l : List Int) (i : Nat) :
    (bubbleDown m l i).length = l.length :=
  hgBubbleDownGo_length _ m l i

theorem hgPop_none {h : pq} (hz : h.data.length = 0) : Pop h = none := by
  rw [Pop, if_pos hz]

theorem hgPop_some {h : pq} (hz : h.data.length ≠ 0) :
    Pop h = some (h.data.getD 0 0,
      { h with data := bubbleDown h.min (removeSlot h.data 0) 0 }) := by
  rw [Pop, if_neg hz]

theorem hgPop_inv {h : pq} {t : Int} {h1 : pq} (hp : Pop h = some (t, h1)) :
    h1.cap = h.cap ∧ h1.min = h.min ∧ h1.data.length = h.data.length - 1 := by
  by_cases hz : h.data.length = 0
  · rw [hgPop_none hz] at hp
    cases hp
  · rw [hgPop_some hz] at hp
    cases hp
    refine ⟨rfl, rfl, ?_⟩
    dsimp only
    rw [hgBubbleDown_length, PriorityQueue.length_removeSlot]

theorem hgPush_full {h : pq} {x : Int} {t : Int} {h1 : pq}
    (hf : h.cap ≠ 0 ∧ (h.data.length : Int) = h.cap) (hp : Pop h = some (t, h1)) :
    Push h x = { h1 with data := (bubbleUp h1.min (h1.data ++ [x])
      ((h1.data ++ [x]).length - 1)) } := by
  rw [Push, if_pos hf, hp]

theorem hgPush_notfull {h : pq} {x : Int}
    (hf : ¬ (h.cap ≠ 0 ∧ (h.data.length : Int) = h.cap)) :
    Push h x = { h with data := (bubbleUp h.min (h.data ++ [x])
      ((h.data ++ [x]).length - 1)) } := by
  rw [Push, if_neg hf]

theorem hgPush_inv (h : pq) (x : Int) (hcap : 0 < h.cap)
    (hlen : (h.data.length : Int) ≤ h.cap) :
    (Push h x).cap = h.cap ∧ (Push h x).min = h.min ∧
      ((Push h x).data.length : Int) ≤ h.cap := by
  by_cases hf : h.cap ≠ 0 ∧ (h.data.length : Int) = h.cap
  · have hne : h.data.length ≠ 0 := by
      have h2 := hf.2
      omega
    obtain ⟨t, h1, hp⟩ : ∃ t h1, Pop h = some (t, h1) := by
      rw [hgPop_some hne]
      exact ⟨_, _, rfl⟩
    obtain ⟨hc1, hm1, hl1⟩ := hgPop_inv hp
    rw [hgPush_full hf hp]
    refine ⟨hc1, hm1, ?_⟩
    dsimp only
    rw [hgBubbleUp_length, List.length_append, List.length_singleton, hl1]
    have h2 := hf.2
    omega
  · rw [hgPush_notfull hf]
    refine ⟨rfl, rfl, ?_⟩
    dsimp only
    rw [hgBubbleUp_length, List.length_append, List.length_singleton]
    have h3 : ¬ ((h.data.length : Int) = h.cap) := fun hh => hf ⟨by omega, hh⟩
    omega

theorem hgHEvolves_inv {h0 h : pq} (he : HEvolves h0 h) (hcap : 0 < h0.cap)
    (hlen : (h0.data.length : Int) ≤ h0.cap) :
    h.cap = h0.cap ∧ h.min = h0.min ∧ ((h.data.length : Int) ≤ h.cap) := by
  induction he with
  | refl => exact ⟨rfl, rfl, hlen⟩
  | push h x hev ih =>
    obtain ⟨hc, hm, hl⟩ := ih
    have h2 := hgPush_inv h x (by omega) (by omega)
    exact ⟨h2.1.trans hc, h2.2.1.trans hm, by have := h2.2.2; omega⟩
  | pop h h1 t hev hp ih =>
    obtain ⟨hc, hm, hl⟩ := ih
    obtain ⟨hc1, hm1, hl1⟩ := hgPop_inv hp
    exact ⟨hc1.trans hc, hm1.trans hm, by omega⟩

end HeapGo

namespace PriorityQueue

variable {T : Type} [Inhabited T] {cmp : T → T → Int}

theorem heapProp_root_min (hl : LawfulCmp cmp) {l : List T} (hh : heapProp cmp l) :
    ∀ k, k < l.length → cmp (l.getD 0 default) (l.getD k default) ≤ 0 := by
  intro k
  induction k using Nat.strong_induction_on with
  | _ k ih =>
    intro hk
    rcases Nat.eq_zero_or_pos k with rfl | hk0
    · exact lcmp_refl hl _
    · exact lcmp_trans hl (ih ((k-1)/2) (by omega) (by omega)) (hh k hk hk0)

theorem lawful_orderedCmp : LawfulCmp orderedCmp := by
  constructor
  · intro a b
    simp only [orderedCmp]
    split_ifs <;> omega
  · intro a b c
    simp only [orderedCmp]
    split_ifs <;> omega

theorem lawful_orderedMaxCmp : LawfulCmp orderedMaxCmp := by
  constructor
  · intro a b
    simp only [orderedMaxCmp]
    split_ifs <;> omega
  · intro a b c
    simp only [orderedMaxCmp]
    split_ifs <;> omega

end PriorityQueue

/-- C7: popping all elements from a heap seeded by pushing `5,3,8,1,2,4,7,6,0,9`
under the natural min ordering yields exactly `[0,1,2,3,4,5,6,7,8,9]`, and
under the natural max ordering yields exactly the reverse sequence. -/
theorem claim_c7 :
    PriorityQueue.popAll PriorityQueue.seedMin = [0, 1, 2, 3, 4, 5, 6, 7, 8, 9] ∧
    PriorityQueue.popAll PriorityQueue.seedMax = [9, 8, 7, 6, 5, 4, 3, 2, 1, 0] := by
  exact ⟨by decide, by decide⟩

/-- C9: every bounded constructor — the comparator-based `NewWithCapacity` and
the min/max convenience constructors of the `heap` package — raises
`InvalidArgument` (a Go panic, modelled as `none`) exactly when the supplied
capacity is `<= 0`; with a positive capacity it returns an empty heap with
that capacity fixed (never a silent unbounded fallback, whose capacity would
be `0`). -/
theorem claim_c9 {T : Type} [Inhabited T] (cmp : T → T → Int) (c s1 s2 : Int) :
    (PriorityQueue.NewWithCapacity cmp c = none ↔ c ≤ 0) ∧
    (0 < c → PriorityQueue.NewWithCapacity cmp c =
      some { data := [], comparator := cmp, capacity := c }) ∧
    (HeapGo.NewMin (some s1) = none ↔ s1 ≤ 0) ∧
    (0 < s1 → HeapGo.NewMin (some s1) = some { data := [], cap := s1, min := true }) ∧
    (HeapGo.NewMax (some s2) = none ↔ s2 ≤ 0) ∧
    (0 < s2 → HeapGo.NewMax (some s2) = some { data := [], cap := s2, min := false }) := by
  refine ⟨?_, ?_, ?_, ?_, ?_, ?_⟩
  · rw [PriorityQueue.NewWithCapacity]
    by_cases h : c ≤ 0
    · rw [if_pos h]
      simp [h]
    · rw [if_neg h]
      simp [h]
  · intro h
    rw [PriorityQueue.NewWithCapacity, if_neg (by omega)]
  · simp only [HeapGo.NewMin]
    by_cases h : s1 ≤ 0
    · rw [if_pos h]
      simp [h]
    · rw [if_neg h]
      simp [h]
  · intro h
    simp only [HeapGo.NewMin]
    rw [if_neg (by omega)]
  · simp only [HeapGo.NewMax]
    by_cases h : s2 ≤ 0
    · rw [if_pos h]
      simp [h]
    · rw [if_neg h]
      simp [h]
  · intro h
    simp only [HeapGo.NewMax]
    rw [if_neg (by omega)]

/-- Witness for C9 at concrete capacities: `-1` and `0` are rejected, `3` and
`2` accepted with the capacity stored (`NewMax 3` yielding exactly the state
`main()` starts from). -/
theorem claim_c9_witness :
    (PriorityQueue.NewWithCapacity PriorityQueue.orderedCmp (-1) = none) ∧
    (PriorityQueue.NewWithCapacity PriorityQueue.orderedCmp 3 =
      some { data := [], comparator := PriorityQueue.orderedCmp, capacity := 3 }) ∧
    (HeapGo.NewMin (some 0) = none) ∧
    (HeapGo.NewMin (some 2) = some { data := [], cap := 2, min := true }) ∧
    (HeapGo.NewMax (some 3) = some HeapGo.mainStart) :=
  ⟨(claim_c9 PriorityQueue.orderedCmp (-1) 1 1).1.mpr (by decide),
   (claim_c9 PriorityQueue.orderedCmp 3 1 1).2.1 (by decide),
   (claim_c9 PriorityQueue.orderedCmp 1 0 1).2.2.1.mpr (by decide),
   (claim_c9 PriorityQueue.orderedCmp 1 2 1).2.2.2.1 (by decide),
   (claim_c9 PriorityQueue.orderedCmp 1 1 3).2.2.2.2.2 (by decide)⟩

/-- C5: on a full bounded heap, pushing `x` with
`comparator(x, data[0]) <= 0` — i.e. `x` not strictly higher priority than
the root, which (second conjunct) is the comparator-least element, the
element the bounded-eviction policy treats as the current weakest — returns
`false` and leaves the heap exactly unchanged: no element added, removed,
or reordered. -/
theorem claim_c5 {T : Type} [Inhabited T] (pq : PriorityQueue.Heap T) (x : T)
    (hl : PriorityQueue.LawfulCmp pq.comparator)
    (hh : PriorityQueue.heapProp pq.comparator pq.data)
    (hb : 0 < pq.capacity) (hf : pq.capacity ≤ (pq.data.length : Int))
    (hx : pq.comparator x (pq.data.getD 0 default) ≤ 0) :
    PriorityQueue.Push pq x = (pq, false) ∧
    (∀ k, k < pq.data.length →
      pq.comparator (pq.data.getD 0 default) (pq.data.getD k default) ≤ 0) :=
  ⟨PriorityQueue.Push_reject ⟨hb, hf⟩ hx, PriorityQueue.heapProp_root_min hl hh⟩

/-- Witness for C5: the full bounded min-heap `[1,2,3]` with capacity 3
rejects a push of `0` unchanged. -/
theorem claim_c5_witness :
    PriorityQueue.LawfulCmp PriorityQueue.pqW.comparator ∧
    PriorityQueue.heapProp PriorityQueue.pqW.comparator PriorityQueue.pqW.data ∧
    0 < PriorityQueue.pqW.capacity ∧
    PriorityQueue.Push PriorityQueue.pqW 0 = (PriorityQueue.pqW, false) :=
  ⟨PriorityQueue.lawful_orderedCmp, by decide, by decide,
    (claim_c5 PriorityQueue.pqW 0 PriorityQueue.lawful_orderedCmp (by decide)
      (by decide) (by decide) (by decide)).1⟩

/-- C4 counterexample: the claim quantifies over every empty heap of the
repository, but `Pop` of the `heap` package's `pq` panics
("heap: pop from empty heap", modelled as `none`) on its empty default heap
instead of returning `found = false` with a zero value. -/
theorem claim_c4_counterexample :
    HeapGo.New = { data := [], cap := 0, min := true } ∧
    HeapGo.Pop HeapGo.New = none :=
  ⟨rfl, rfl⟩

/-- C4 (amended): for the comparator-based `PriorityQueue`, `Pop` and `Peek`
on an empty heap return `found = false` with the element type's zero value
and leave the state unchanged no matter how many times they are called; the
`heap` package's `pq.Pop`, by contrast, panics on an empty heap. -/
theorem claim_c4 {T : Type} [Inhabited T] (pq : PriorityQueue.Heap T)
    (h : pq.data = []) :
    PriorityQueue.Pop pq = ((default, false), pq) ∧
    PriorityQueue.Peek pq = (default, false) ∧
    ∀ n : Nat, (fun q => (PriorityQueue.Pop q).2)^[n] pq = pq := by
  have hz : pq.data.length = 0 := by rw [h]; rfl
  refine ⟨PriorityQueue.Pop_empty hz, ?_, ?_⟩
  · rw [PriorityQueue.Peek, if_pos hz]
  · intro n
    induction n with
    | zero => rfl
    | succ n ih =>
      rw [Function.iterate_succ_apply]
      rw [PriorityQueue.Pop_empty hz]
      exact ih

/-- Witness for C4 (amended) at the empty `NewOrdered` heap over `int`. -/
theorem claim_c4_witness :
    PriorityQueue.NewOrdered.data = [] ∧
    PriorityQueue.Pop PriorityQueue.NewOrdered =
      ((0, false), PriorityQueue.NewOrdered) ∧
    PriorityQueue.Peek PriorityQueue.NewOrdered = (0, false) :=
  ⟨rfl, (claim_c4 PriorityQueue.NewOrdered rfl).1,
    (claim_c4 PriorityQueue.NewOrdered rfl).2.1⟩

/-- C3 counterexample: the ten pushes of the program's own bounded max-heap
`heap.NewMax[int](3)` leave the data `[9, 0, 1]`, whose multiset is not
`{6, 7, 9}` — the heap does not end with the three highest-priority values
seen. -/
theorem claim_c3_counterexample :
    HeapGo.NewMax (some 3) = some HeapGo.mainStart ∧
    HeapGo.mainFinal.data = [9, 0, 1] ∧
    ¬ (Multiset.ofList HeapGo.mainFinal.data = {6, 7, 9}) :=
  ⟨rfl, by decide, by decide⟩

/-- C3 (amended): a `heap`-package max-heap with capacity 3 receiving pushes
`5,3,8,1,2,4,7,6,0,9` ends with the multiset `{0, 1, 9}` (data `[9, 0, 1]`,
popped as `9, 1, 0`): when full, its `Push` unconditionally `Pop`s the root —
the highest-priority element — to make room, so the heap keeps eviction
survivors rather than the top three values. -/
theorem claim_c3 :
    HeapGo.mainFinal.data = [9, 0, 1] ∧
    Multiset.ofList HeapGo.mainFinal.data = {0, 1, 9} ∧
    HeapGo.popAll HeapGo.mainFinal = [9, 1, 0] :=
  ⟨by decide, by decide, by decide⟩

/-- C10: evaluation of `Remove` at the failing input. The `Item` queue
`badPQ` (priorities `[10, 3, 9, 1, 2, 8]`) satisfies the max-heap property;
`Remove(3)` moves the last item (priority `8`) into slot 3 — whose parent
holds priority `3` — truncates, and only calls `heapifyDown`, which performs
no swap; the result `[10, 3, 9, 8, 2]` violates the max-heap property at
index 3 (parent priority `3` < child priority `8`), contradicting the claim
that `Remove` preserves the invariant. -/
theorem claim_c10 :
    ItemPQ.heapOrdered ItemPQ.badPQ ∧
    (ItemPQ.Remove ItemPQ.badPQ 3).map (fun it => it.Priority) = [10, 3, 9, 8, 2] ∧
    ¬ ItemPQ.heapOrdered (ItemPQ.Remove ItemPQ.badPQ 3) :=
  ⟨by decide, by decide, by decide⟩

/-- C1: on a full bounded heap, `Push x` compares `x` against the current
root `data[0]`, which (first conjunct) is the comparator-least element — the
element the spec's eviction policy designates as minimum-priority, i.e. the
one a `Pop` would evict.  The push returns `false` with no mutation exactly
when `x` is not strictly higher priority than that element
(`comparator(x, root) <= 0` under the policy's orientation); otherwise it
returns `true` having evicted the root of the pre-state and appended `x`:
the new contents plus the evicted root are a permutation of `x` plus the old
contents, with capacity and comparator unchanged. -/
theorem claim_c1 {T : Type} [Inhabited T] (pq : PriorityQueue.Heap T) (x : T)
    (hl : PriorityQueue.LawfulCmp pq.comparator)
    (hh : PriorityQueue.heapProp pq.comparator pq.data)
    (hb : 0 < pq.capacity) (hf : pq.capacity ≤ (pq.data.length : Int)) :
    (∀ k, k < pq.data.length →
      pq.comparator (pq.data.getD 0 default) (pq.data.getD k default) ≤ 0) ∧
    (pq.comparator x (pq.data.getD 0 default) ≤ 0 →
      PriorityQueue.Push pq x = (pq, false)) ∧
    (0 < pq.comparator x (pq.data.getD 0 default) →
      (PriorityQueue.Push pq x).2 = true ∧
      List.Perm (pq.data.getD 0 default :: (PriorityQueue.Push pq x).1.data)
        (x :: pq.data) ∧
      (PriorityQueue.Push pq x).1.capacity = pq.capacity ∧
      (PriorityQueue.Push pq x).1.comparator = pq.comparator) := by
  refine ⟨PriorityQueue.heapProp_root_min hl hh,
    fun hx => PriorityQueue.Push_reject ⟨hb, hf⟩ hx, fun hx => ?_⟩
  have hx2 : ¬ pq.comparator x (pq.data.getD 0 default) ≤ 0 := by omega
  have hne : pq.data.length ≠ 0 := by omega
  rw [PriorityQueue.Push_evict ⟨hb, hf⟩ hx2]
  refine ⟨rfl, ?_, PriorityQueue.Pop_capacity pq, PriorityQueue.Pop_comparator pq⟩
  dsimp only
  have h1 : (PriorityQueue.bubbleUp (PriorityQueue.Pop pq).2.comparator
      ((PriorityQueue.Pop pq).2.data ++ [x])
      (((PriorityQueue.Pop pq).2.data ++ [x]).length - 1)).Perm
      ((PriorityQueue.Pop pq).2.data ++ [x]) := by
    apply PriorityQueue.bubbleUp_perm
    rw [List.length_append, List.length_singleton]
    omega
  have h2 : ((PriorityQueue.Pop pq).2.data ++ [x]).Perm
      (x :: (PriorityQueue.Pop pq).2.data) := List.perm_append_singleton x _
  have h3 := PriorityQueue.Pop_perm hne
  exact ((h1.trans h2).cons _).trans
    ((List.Perm.swap x (pq.data.getD 0 default) (PriorityQueue.Pop pq).2.data).trans
      (h3.cons x))

/-- Witness for C1: the full bounded min-heap `[1,2,3]` (capacity 3) rejects
pushing `0` (not strictly higher priority than the root `1` under the
eviction orientation) and accepts pushing `5`. -/
theorem claim_c1_witness :
    PriorityQueue.LawfulCmp PriorityQueue.pqW.comparator ∧
    PriorityQueue.heapProp PriorityQueue.pqW.comparator PriorityQueue.pqW.data ∧
    0 < PriorityQueue.pqW.capacity ∧
    PriorityQueue.pqW.capacity ≤ (PriorityQueue.pqW.data.length : Int) ∧
    PriorityQueue.Push PriorityQueue.pqW 0 = (PriorityQueue.pqW, false) ∧
    (PriorityQueue.Push PriorityQueue.pqW 5).2 = true :=
  ⟨PriorityQueue.lawful_orderedCmp, by decide, by decide, by decide,
    (claim_c1 PriorityQueue.pqW 0 PriorityQueue.lawful_orderedCmp (by decide)
      (by decide) (by decide)).2.1 (by decide),
    ((claim_c1 PriorityQueue.pqW 5 PriorityQueue.lawful_orderedCmp (by decide)
      (by decide) (by decide)).2.2 (by decide)).1⟩

/-- C2: for every heap reachable from an empty heap by any sequence of
`Push`, `Pop`, `Remove` (and `Clear`), with the comparator a total pre-order,
and for every index `i > 0` with parent `p = (i-1)/2`,
`comparator(elements[p], elements[i])` does not report the child as strictly
higher priority (`<= 0`); the property holds in every reachable state, i.e.
at the moment every mutating operation returns. -/
theorem claim_c2 {T : Type} [Inhabited T] (q0 q : PriorityQueue.Heap T)
    (hl : PriorityQueue.LawfulCmp q0.comparator)
    (h0 : q0.data = [])
    (he : PriorityQueue.Evolves q0 q) :
    ∀ i, i < q.data.length → 0 < i →
      q.comparator (q.data.getD ((i-1)/2) default) (q.data.getD i default) ≤ 0 := by
  obtain ⟨hc, _, hh⟩ := PriorityQueue.Evolves_inv he
  have hbase : PriorityQueue.heapProp q0.comparator q0.data := by
    intro j hj hj0
    rw [h0] at hj
    simp at hj
  have h2 := hh hl hbase
  intro i hi hi0
  rw [hc]
  exact h2 i hi hi0

/-- Witness for C2: the state reached from the empty `New` heap by pushing
`5, 3, 8` and popping once satisfies the heap property. -/
theorem claim_c2_witness :
    (PriorityQueue.New PriorityQueue.orderedCmp).data = [] ∧
    ∀ i, i < PriorityQueue.pqC2.data.length → 0 < i →
      PriorityQueue.pqC2.comparator
        (PriorityQueue.pqC2.data.getD ((i-1)/2) default)
        (PriorityQueue.pqC2.data.getD i default) ≤ 0 :=
  ⟨rfl, claim_c2 (PriorityQueue.New PriorityQueue.orderedCmp) PriorityQueue.pqC2
    PriorityQueue.lawful_orderedCmp rfl
    (.pop _ _ (.push _ _ 8 (.push _ _ 3 (.push _ _ 5 (.refl _)))))⟩

/-- C6: `removeAt(i)` on a non-empty heap only truncates when `i` is the last
index; otherwise it moves the last element into slot `i`, truncates
(`removeSlot`), and sift-downs from `i`, performing the sift-up from `i`
exactly when the sift-down made no swap (second conjunct; when moreover the
sift-down made no swap it left the array untouched); and after a single such
replacement at most one of the two directions ever performs a swap — when
the sift-down swapped, a sift-up from `i` on the result would leave it
unchanged (third conjunct), so the two directions never both swap. -/
theorem claim_c6 {T : Type} [Inhabited T] (pq : PriorityQueue.Heap T) (i : Nat)
    (hl : PriorityQueue.LawfulCmp pq.comparator)
    (hh : PriorityQueue.heapProp pq.comparator pq.data)
    (hi : i < pq.data.length) :
    (pq.data.length - 1 = i →
      PriorityQueue.removeAt pq i =
        { pq with data := pq.data.take (pq.data.length - 1) }) ∧
    (pq.data.length - 1 ≠ i →
      ((PriorityQueue.bubbleDown pq.comparator (removeSlot pq.data i) i).2 = false →
        (PriorityQueue.bubbleDown pq.comparator (removeSlot pq.data i) i).1 =
          removeSlot pq.data i ∧
        PriorityQueue.removeAt pq i =
          { pq with data :=
            (PriorityQueue.bubbleUp pq.comparator (removeSlot pq.data i) i) }) ∧
      ((PriorityQueue.bubbleDown pq.comparator (removeSlot pq.data i) i).2 = true →
        PriorityQueue.removeAt pq i =
          { pq with data :=
            (PriorityQueue.bubbleDown pq.comparator (removeSlot pq.data i) i).1 } ∧
        PriorityQueue.bubbleUp pq.comparator
          (PriorityQueue.bubbleDown pq.comparator (removeSlot pq.data i) i).1 i =
          (PriorityQueue.bubbleDown pq.comparator (removeSlot pq.data i) i).1)) := by
  constructor
  · intro hlast
    rw [PriorityQueue.removeAt_unfold, if_neg (by omega)]
  · intro hlast
    constructor
    · intro hsw
      have hfix := PriorityQueue.bubbleDown_fst_of_snd_false hsw
      refine ⟨hfix, ?_⟩
      rw [PriorityQueue.removeAt_unfold, if_pos hlast,
        if_neg (by rw [hsw]; simp), hfix]
    · intro hsw
      refine ⟨by rw [PriorityQueue.removeAt_unfold, if_pos hlast, if_pos hsw], ?_⟩
      apply PriorityQueue.bubbleUp_noop
      intro h0
      have hi1 : i < pq.data.length - 1 := by omega
      have hdt : PriorityQueue.downTarget pq.comparator (removeSlot pq.data i) i ≠ i := by
        intro heq
        rw [PriorityQueue.bubbleDown_false heq] at hsw
        simp at hsw
      rcases PriorityQueue.downTarget_spec hl (removeSlot pq.data i) i with
        ⟨heq, _⟩ | ⟨hilt, hdn, hchild, hlt0, hmin⟩
      · exact absurd heq hdt
      have hd1len : (removeSlot pq.data i).length = pq.data.length - 1 :=
        PriorityQueue.length_removeSlot _ _
      have hγd : pq.comparator ((removeSlot pq.data i).getD ((i-1)/2) default)
          ((removeSlot pq.data i).getD
            (PriorityQueue.downTarget pq.comparator (removeSlot pq.data i) i)
            default) ≤ 0 := by
        rw [PriorityQueue.getD_removeSlot _ (by omega),
          PriorityQueue.getD_removeSlot _ (by omega),
          if_neg (show ¬ (i-1)/2 = i by omega),
          if_neg (show ¬ PriorityQueue.downTarget pq.comparator
            (removeSlot pq.data i) i = i by omega)]
        have e1 := hh i hi h0
        have e2 := hh (PriorityQueue.downTarget pq.comparator (removeSlot pq.data i) i)
          (by omega) (by omega)
        rw [show (PriorityQueue.downTarget pq.comparator (removeSlot pq.data i) i - 1)/2
          = i by omega] at e2
        exact PriorityQueue.lcmp_trans hl e1 e2
      rw [PriorityQueue.bubbleDown_true hdt]
      dsimp only
      rw [PriorityQueue.bubbleDown_getD_lt _ _ (by rw [length_listSwap]; exact hdn)
        i hilt]
      rw [PriorityQueue.bubbleDown_getD_lt _ _ (by rw [length_listSwap]; exact hdn)
        ((i-1)/2) (by omega)]
      rw [getD_listSwap _ (by omega) hdn i, getD_listSwap _ (by omega) hdn ((i-1)/2)]
      rw [if_neg (show ¬ i = PriorityQueue.downTarget pq.comparator
          (removeSlot pq.data i) i by omega),
        if_pos (show i = i from rfl),
        if_neg (show ¬ (i-1)/2 = PriorityQueue.downTarget pq.comparator
          (removeSlot pq.data i) i by omega),
        if_neg (show ¬ (i-1)/2 = i by omega)]
      exact (hl.1 _ _).mpr hγd

/-- Witness for C6 on the min-heap `[1,2,3,4,5]`, removing index 1: the
sift-down swaps (so no sift-up is performed), and a sift-up from index 1 on
the result would change nothing. -/
theorem claim_c6_witness :
    PriorityQueue.heapProp PriorityQueue.pqR.comparator PriorityQueue.pqR.data ∧
    (PriorityQueue.bubbleDown PriorityQueue.pqR.comparator
      (removeSlot PriorityQueue.pqR.data 1) 1).2 = true ∧
    (PriorityQueue.removeAt PriorityQueue.pqR 1 =
      { PriorityQueue.pqR with data :=
        (PriorityQueue.bubbleDown PriorityQueue.pqR.comparator
          (removeSlot PriorityQueue.pqR.data 1) 1).1 } ∧
     PriorityQueue.bubbleUp PriorityQueue.pqR.comparator
        (PriorityQueue.bubbleDown PriorityQueue.pqR.comparator
          (removeSlot PriorityQueue.pqR.data 1) 1).1 1 =
        (PriorityQueue.bubbleDown PriorityQueue.pqR.comparator
          (removeSlot PriorityQueue.pqR.data 1) 1).1) :=
  ⟨by decide, by decide,
    ((claim_c6 PriorityQueue.pqR 1 PriorityQueue.lawful_orderedCmp (by decide)
      (by decide)).2 (by decide)).2 (by decide)⟩

/-- C8: for heaps constructed with a positive capacity,
`len(elements) <= capacity` holds in every state reachable by the mutating
operations, for both families: the comparator-based `PriorityQueue` (whose
bounded constructor also keeps the capacity positive forever) under `Push`,
`Pop`, `Remove` and `Clear`, and the `heap` package's `pq` under `Push` and
`Pop`. -/
theorem claim_c8 :
    (∀ (T : Type) [Inhabited T] (cmp : T → T → Int) (c : Int)
      (q0 q : PriorityQueue.Heap T),
      PriorityQueue.NewWithCapacity cmp c = some q0 →
      PriorityQueue.Evolves q0 q →
      0 < q.capacity ∧ (q.data.length : Int) ≤ q.capacity) ∧
    (∀ (s : Int) (h0 h : HeapGo.pq),
      (HeapGo.NewMin (some s) = some h0 ∨ HeapGo.NewMax (some s) = some h0) →
      HeapGo.HEvolves h0 h →
      (h.data.length : Int) ≤ h.cap) := by
  constructor
  · intro T _ cmp c q0 q hnew he
    rw [PriorityQueue.NewWithCapacity] at hnew
    by_cases hc : c ≤ 0
    · rw [if_pos hc] at hnew
      cases hnew
    · rw [if_neg hc] at hnew
      cases hnew
      constructor
      · rw [(PriorityQueue.Evolves_inv he).2.1]
        dsimp only
        omega
      · exact PriorityQueue.Evolves_capacity_inv he (by dsimp only; omega)
          (by dsimp only [List.length_nil]; omega)
  · intro s h0 h hnew he
    have hs : 0 < s ∧ h0.cap = s ∧ h0.data = [] := by
      rcases hnew with hnew | hnew
      · simp only [HeapGo.NewMin] at hnew
        by_cases h1 : s ≤ 0
        · rw [if_pos h1] at hnew
          cases hnew
        · rw [if_neg h1] at hnew
          cases hnew
          exact ⟨by omega, rfl, rfl⟩
      · simp only [HeapGo.NewMax] at hnew
        by_cases h1 : s ≤ 0
        · rw [if_pos h1] at hnew
          cases hnew
        · rw [if_neg h1] at hnew
          cases hnew
          exact ⟨by omega, rfl, rfl⟩
    obtain ⟨hs1, hs2, hs3⟩ := hs
    have h2 := HeapGo.hgHEvolves_inv he (by omega) (by rw [hs3]; simp; omega)
    exact h2.2.2

/-- Witness for C8: a capacity-2 `NewWithCapacity` heap after one push, and
the `main()` heap `NewMax 3` after its ten pushes, both respect their
capacity bound. -/
theorem claim_c8_witness :
    (PriorityQueue.NewWithCapacity PriorityQueue.orderedCmp 2 =
      some { data := [], comparator := PriorityQueue.orderedCmp, capacity := 2 }) ∧
    (0 < (PriorityQueue.Push
        { data := [], comparator := PriorityQueue.orderedCmp, capacity := 2 }
        (7:Int)).1.capacity ∧
      (((PriorityQueue.Push
        { data := [], comparator := PriorityQueue.orderedCmp, capacity := 2 }
        (7:Int)).1.data.length : Int) ≤ (PriorityQueue.Push
        { data := [], comparator := PriorityQueue.orderedCmp, capacity := 2 }
        (7:Int)).1.capacity)) ∧
    HeapGo.NewMax (some 3) = some HeapGo.mainStart ∧
    ((HeapGo.mainFinal.data.length : Int) ≤ HeapGo.mainFinal.cap) :=
  ⟨rfl,
   claim_c8.1 Int PriorityQueue.orderedCmp 2 _ _ rfl (.push _ _ 7 (.refl _)),
   rfl,
   claim_c8.2 3 HeapGo.mainStart HeapGo.mainFinal (Or.inr rfl)
     (.push _ _ 9 (.push _ _ 0 (.push _ _ 6 (.push _ _ 7 (.push _ _ 4 (.push _ _ 2
       (.push _ _ 1 (.push _ _ 8 (.push _ _ 3 (.push _ _ 5 (.refl _)))))))))))⟩
